import Mathlib

/-!
# Verification of the pdfmm tokenizer / variant-parser core

A shallow embedding of the pdfmm PDF object core: byte-level tokenizer,
variant parser, canonical formatter, the `PdfDictionary` map semantics,
the object dirty flag, the xref-stream `/W` validation and the painter's
`GetMultiLineTextAsLines`.

Bytes are modelled as `Nat` (values `< 256`); byte streams as `List Nat`.
The tokenizer and variant parser implementations (`PdfTokenizer.cpp`,
`PdfVariant.cpp`, `PdfParserObject.cpp`) are not present in the source
tree; those definitions are modelled from the specification's rules
(spec §4.1, §4.2, §4.3) and are pinned by the unit tests in
`test/unit/TokenizerTest.cpp` and the object tests.
-/

namespace Pdfmm

/-- Convert an ASCII Lean string to its byte list (used for concrete inputs). -/
def bytes (s : String) : List Nat := s.toList.map Char.toNat

/-- PDF whitespace bytes: NUL, TAB, LF, FF, CR, space (spec §4.1). -/
def isWs (b : Nat) : Bool :=
  b = 0 || b = 9 || b = 10 || b = 12 || b = 13 || b = 32

/-- PDF delimiter bytes: `( ) < > [ ] { } / %` (spec §4.1). -/
def isDelim (b : Nat) : Bool :=
  b = 40 || b = 41 || b = 60 || b = 62 || b = 91 || b = 93 ||
  b = 123 || b = 125 || b = 47 || b = 37

/-- A regular byte: neither whitespace nor a delimiter. -/
def isRegular (b : Nat) : Bool := !isWs b && !isDelim b

/-- Value of a hexadecimal digit byte, if it is one. -/
def hexVal (b : Nat) : Option Nat :=
  if 48 ≤ b ∧ b ≤ 57 then some (b - 48)
  else if 65 ≤ b ∧ b ≤ 70 then some (b - 55)
  else if 97 ≤ b ∧ b ≤ 102 then some (b - 87)
  else none

/-- Uppercase hexadecimal digit byte for a nibble value (hex strings are
re-emitted uppercase, spec §4.2). -/
def hexChar (v : Nat) : Nat := if v < 10 then v + 48 else v + 55

/-- Skip whitespace and `%`-comments (a comment runs to end of line and is
entirely elided, spec §4.1).  The `inComment` flag makes the recursion
structural on the input list. -/
def skipWsAux : Bool → List Nat → List Nat
  | _, [] => []
  | true, c :: l => if c = 10 then skipWsAux false l else skipWsAux true l
  | false, c :: l =>
    if isWs c then skipWsAux false l
    else if c = 37 then skipWsAux true l
    else c :: l

/-- Skip whitespace and comments before the next token. -/
def skipWsC (l : List Nat) : List Nat := skipWsAux false l

/-- Read a maximal run of decimal digit bytes, returning their values. -/
def readDigitVals : List Nat → (List Nat × List Nat)
  | [] => ([], [])
  | c :: l =>
    if 48 ≤ c ∧ c ≤ 57 then
      let (ds, r) := readDigitVals l
      ((c - 48) :: ds, r)
    else ([], c :: l)

/-- Decimal value of a digit list (most significant first). -/
def digitsToNat (ds : List Nat) : Nat := ds.foldl (fun a d => 10 * a + d) 0

/-- Digits of `n`, most significant first, by fuel-bounded division
(`fuel = n + 1` always suffices). -/
def natDigitsAux : Nat → Nat → List Nat → List Nat
  | 0, _, acc => acc
  | fuel + 1, n, acc =>
    if n < 10 then n :: acc else natDigitsAux fuel (n / 10) (n % 10 :: acc)

/-- Decimal digits of `n`, most significant first (`[0]` for zero). -/
def natDigits (n : Nat) : List Nat := natDigitsAux (n + 1) n []

/-- Decimal digit bytes of `n`. -/
def natChars (n : Nat) : List Nat := (natDigits n).map (· + 48)

/-- A raw numeric token: optional sign, integer digits, optional dot and
fraction digits (spec §4.1: optional leading `+`/`-`, digits, optional
single `.`; a malformed numeric token is a lexical error). -/
structure NumTok where
  neg : Bool
  intDs : List Nat
  hasDot : Bool
  fracDs : List Nat

/-- Token-boundary test: end of input or a non-regular byte. -/
def termOk : List Nat → Bool
  | [] => true
  | c :: _ => !isRegular c

/-- Strip an optional leading sign byte, reporting whether it was `-`. -/
def readSign (l : List Nat) : Bool × List Nat :=
  match l with
  | [] => (false, [])
  | c :: r => if c = 45 then (true, r) else if c = 43 then (false, r) else (false, c :: r)

/-- Strip a leading `.` byte if present. -/
def dotSplit (l : List Nat) : Option (List Nat) :=
  match l with
  | [] => none
  | c :: r => if c = 46 then some r else none

/-- Read one numeric token.  Fails (`none`) on a malformed numeric token:
no digits at all, a second `.`, or trailing regular bytes. -/
def readNumTok (l : List Nat) : Option (NumTok × List Nat) :=
  let s := readSign l
  let p := readDigitVals s.2
  match dotSplit p.2 with
  | some l3 =>
    let q := readDigitVals l3
    if p.1 = [] && q.1 = [] then none
    else if termOk q.2 then some (⟨s.1, p.1, true, q.1⟩, q.2) else none
  | none =>
    if p.1 = [] then none
    else if termOk p.2 then some (⟨s.1, p.1, false, []⟩, p.2) else none

/-- Signed integer value of a numeric token. -/
def NumTok.intVal (t : NumTok) : Int :=
  if t.neg then -(digitsToNat t.intDs : Int) else (digitsToNat t.intDs : Int)

/-- Pad a fraction-digit list on the right with zeros to 6 digits. -/
def pad6 (ds : List Nat) : List Nat := ds ++ List.replicate (6 - ds.length) 0

/-- Value of a real token in millionths.  The canonical format carries
exactly six fraction digits (e.g. `4.000000`); extra digits are truncated
when re-reading non-canonical input. -/
def NumTok.realVal (t : NumTok) : Int :=
  let v : Nat := digitsToNat t.intDs * 1000000 + digitsToNat (pad6 (t.fracDs.take 6))
  if t.neg then -(v : Int) else (v : Int)

/-- Is `b` an octal digit byte? -/
def isOctal (b : Nat) : Bool := 48 ≤ b && b ≤ 55

/-- Read the body of a literal string after `(`: balanced-paren scanning
with a depth counter, backslash escapes `\n \r \t \b \f \( \) \\`, octal
escapes of 1–3 digits (wrapping modulo 256), backslash–newline as line
continuation, and any other `\X` dropping the backslash (spec §4.2).
`none` on an unterminated string.  Fuel-bounded to keep the recursion
structural; `input.length + 1` fuel always suffices since every step
consumes at least one byte. -/
def readLit : Nat → Nat → List Nat → List Nat → Option (List Nat × List Nat)
  | 0, _, _, _ => none
  | _ + 1, _, _, [] => none
  | fuel + 1, depth, acc, c :: l =>
    if c = 41 then
      if depth = 0 then some (acc.reverse, l) else readLit fuel (depth - 1) (41 :: acc) l
    else if c = 40 then readLit fuel (depth + 1) (40 :: acc) l
    else if c = 92 then
      match l with
      | [] => none
      | d :: l2 =>
        if d = 110 then readLit fuel depth (10 :: acc) l2
        else if d = 114 then readLit fuel depth (13 :: acc) l2
        else if d = 116 then readLit fuel depth (9 :: acc) l2
        else if d = 98 then readLit fuel depth (8 :: acc) l2
        else if d = 102 then readLit fuel depth (12 :: acc) l2
        else if d = 40 then readLit fuel depth (40 :: acc) l2
        else if d = 41 then readLit fuel depth (41 :: acc) l2
        else if d = 92 then readLit fuel depth (92 :: acc) l2
        else if d = 10 then readLit fuel depth acc l2
        else if d = 13 then
          match l2 with
          | 10 :: l3 => readLit fuel depth acc l3
          | _ => readLit fuel depth acc l2
        else if isOctal d then
          match l2 with
          | d2 :: l3 =>
            if isOctal d2 then
              match l3 with
              | d3 :: l4 =>
                if isOctal d3 then
                  readLit fuel depth
                    ((((d - 48) * 64 + (d2 - 48) * 8 + (d3 - 48)) % 256) :: acc) l4
                else readLit fuel depth (((d - 48) * 8 + (d2 - 48)) :: acc) l3
              | [] => readLit fuel depth (((d - 48) * 8 + (d2 - 48)) :: acc) []
            else readLit fuel depth ((d - 48) :: acc) l2
          | [] => readLit fuel depth ((d - 48) :: acc) []
        else readLit fuel depth (d :: acc) l2
    else readLit fuel depth (c :: acc) l

/-- Read the body of a hex string after `<`: hex digits accumulate, other
bytes are skipped, an odd digit count is completed with a trailing `0`
nibble at the closing `>` (spec §4.2).  `none` on an unterminated string. -/
def readHex : Option Nat → List Nat → List Nat → Option (List Nat × List Nat)
  | _, _, [] => none
  | pending, acc, c :: l =>
    if c = 62 then
      match pending with
      | some hi => some ((hi * 16 :: acc).reverse, l)
      | none => some (acc.reverse, l)
    else
      match hexVal c with
      | some v =>
        match pending with
        | none => readHex (some v) acc l
        | some hi => readHex none ((hi * 16 + v) :: acc) l
      | none => readHex pending acc l

/-- Read a name body after `/`: regular bytes accumulate, `#XX` two-hex-digit
escapes decode to the escaped byte, a malformed `#` escape passes through
(spec §4.1, §7).  Stops at the first whitespace or delimiter byte.
Fuel-bounded to keep the recursion structural; `input.length + 1` fuel
always suffices. -/
def readName : Nat → List Nat → List Nat → (List Nat × List Nat)
  | 0, acc, l => (acc.reverse, l)
  | _ + 1, acc, [] => (acc.reverse, [])
  | fuel + 1, acc, c :: l =>
    if isRegular c then
      if c = 35 then
        match l with
        | h1 :: h2 :: l2 =>
          match hexVal h1, hexVal h2 with
          | some a, some b => readName fuel ((a * 16 + b) :: acc) l2
          | _, _ => readName fuel (35 :: acc) l
        | _ => readName fuel (35 :: acc) l
      else readName fuel (c :: acc) l
    else (acc.reverse, c :: l)

/-- Read a maximal run of regular bytes (a keyword token). -/
def readKw : List Nat → List Nat → (List Nat × List Nat)
  | acc, [] => (acc.reverse, [])
  | acc, c :: l =>
    if isRegular c then readKw (c :: acc) l else (acc.reverse, c :: l)

/-- Reference-tail lookahead after an integer token: whitespace, a second
nonnegative integer token, whitespace, the keyword `R`.  On mismatch the
result is `none` and the caller keeps the already-read number with no byte
irrecoverably consumed (spec §4.2: 2-token lookahead with backtracking). -/
def tryRefTail (l : List Nat) : Option (Nat × List Nat) :=
  match readNumTok (skipWsC l) with
  | none => none
  | some (t, l2) =>
    if t.neg || t.hasDot || decide (t.intDs = []) then none
    else
      match skipWsC l2 with
      | 82 :: l3 => if termOk l3 then some (digitsToNat t.intDs, l3) else none
      | _ => none

/-- The pdfmm variant sum type (spec §3): Null, Bool, Number (integer),
Real, String (literal or hex), Name, Reference, Array, Dictionary.
A real carries its value in millionths, matching the canonical
six-fraction-digit formatting; string and name payloads are decoded bytes.
Dictionary entries are listed in the stored (`std::map`) order. -/
inductive PdfVariant where
  | null
  | bool (b : Bool)
  | number (n : Int)
  | real (millionths : Int)
  | string (hex : Bool) (data : List Nat)
  | name (data : List Nat)
  | ref (num : Nat) (gen : Nat)
  | array (items : List PdfVariant)
  | dict (entries : List (List Nat × PdfVariant))

/-- The `IsNull()` test of a variant. -/
def PdfVariant.isNull : PdfVariant → Bool
  | .null => true
  | _ => false

/-- Byte-lexicographic strict order on names: the `std::less<PdfName>`
comparison underlying `PdfDictionary::Map` (`std::map<PdfName, PdfObject>`,
PdfDictionary.h). -/
def keyLt : List Nat → List Nat → Bool
  | [], [] => false
  | [], _ :: _ => true
  | _ :: _, [] => false
  | a :: as, b :: bs => if a < b then true else if b < a then false else keyLt as bs

/-- The `std::map` insertion: place the new pair at its ordered position,
replacing an existing equal key (PdfDictionary::AddKey semantics over
`std::map<PdfName, PdfObject>`). -/
def dictInsert : List (List Nat × PdfVariant) → List Nat → PdfVariant →
    List (List Nat × PdfVariant)
  | [], k, v => [(k, v)]
  | (k0, v0) :: rest, k, v =>
    if keyLt k k0 then (k, v) :: (k0, v0) :: rest
    else if k = k0 then (k, v) :: rest
    else (k0, v0) :: dictInsert rest k v

/-- Escape a literal-string byte for canonical output: `( ) \` and the
named control characters are backslash-escaped, all other bytes pass
through (spec §4.2 canonical formatting). -/
def escLit : List Nat → List Nat
  | [] => []
  | b :: r =>
    if b = 40 then 92 :: 40 :: escLit r
    else if b = 41 then 92 :: 41 :: escLit r
    else if b = 92 then 92 :: 92 :: escLit r
    else if b = 10 then 92 :: 110 :: escLit r
    else if b = 13 then 92 :: 114 :: escLit r
    else if b = 9 then 92 :: 116 :: escLit r
    else if b = 8 then 92 :: 98 :: escLit r
    else if b = 12 then 92 :: 102 :: escLit r
    else b :: escLit r

/-- A name byte that needs no `#XX` escape: printable, not a delimiter,
not `#` itself. -/
def isNameRegular (b : Nat) : Bool :=
  33 ≤ b && b ≤ 126 && !isDelim b && b ≠ 35

/-- Escape a name's bytes for canonical output: any byte outside the safe
printable set is re-escaped to uppercase `#XX` (spec §4.2). -/
def escName : List Nat → List Nat
  | [] => []
  | b :: r =>
    if isNameRegular b then b :: escName r
    else 35 :: hexChar (b / 16 % 16) :: hexChar (b % 16) :: escName r

/-- Uppercase hex byte pairs of a byte list (hex-string canonical output). -/
def hexBytes : List Nat → List Nat
  | [] => []
  | b :: r => hexChar (b / 16 % 16) :: hexChar (b % 16) :: hexBytes r

/-- Decimal byte rendering of an integer. -/
def intChars (n : Int) : List Nat :=
  if n < 0 then 45 :: natChars n.natAbs else natChars n.natAbs

/-- Canonical rendering of a real from its value in millionths:
integer part, `.`, exactly six fraction digits. -/
def realChars (m : Int) : List Nat :=
  let sign : List Nat := if m < 0 then [45] else []
  let q := m.natAbs / 1000000
  let r := m.natAbs % 1000000
  let frac := natDigits r
  sign ++ natChars q ++ (46 :: (List.replicate (6 - frac.length) 48 ++ frac.map (· + 48)))

mutual
/-- Canonical `ToString`/`Write` formatting of a variant (spec §4.2):
arrays as `[ v1 v2 ]`, dictionaries as `<<\n/K1 v1\n>>` one key per line,
hex strings uppercase, names `#XX`-escaped, literal strings re-escaped,
reals with six fraction digits.  Dictionary entries are written in
stored order. -/
def fmtV : PdfVariant → List Nat
  | .null => [110, 117, 108, 108]
  | .bool true => [116, 114, 117, 101]
  | .bool false => [102, 97, 108, 115, 101]
  | .number n => intChars n
  | .real m => realChars m
  | .string true bs => 60 :: (hexBytes bs ++ [62])
  | .string false bs => 40 :: (escLit bs ++ [41])
  | .name bs => 47 :: escName bs
  | .ref n g => natChars n ++ (32 :: natChars g) ++ [32, 82]
  | .array items => 91 :: fmtItems items
  | .dict entries => 60 :: 60 :: 10 :: fmtEntries entries

/-- Formats the tail of an array: each item preceded by a space, closed
by `" ]"` (so the empty array renders `[ ]`). -/
def fmtItems : List PdfVariant → List Nat
  | [] => [32, 93]
  | v :: vs => 32 :: (fmtV v ++ fmtItems vs)

/-- Formats dictionary entries `/Key value\n` each on its own line,
closed by `>>`. -/
def fmtEntries : List (List Nat × PdfVariant) → List Nat
  | [] => [62, 62]
  | (k, v) :: rest => 47 :: (escName k ++ (32 :: (fmtV v ++ (10 :: fmtEntries rest))))
end

mutual
/-- Structural well-formedness of a variant as the C++ data model keeps it:
string and name payloads are bytes (`< 256`) and dictionary entries sit in
strictly ascending `std::map` key order. -/
def wfV : PdfVariant → Bool
  | .null | .bool _ | .number _ | .real _ | .ref _ _ => true
  | .string _ bs => bs.all (· < 256)
  | .name bs => bs.all (· < 256)
  | .array items => wfItems items
  | .dict entries => wfEntries entries

/-- Well-formedness of array items. -/
def wfItems : List PdfVariant → Bool
  | [] => true
  | v :: vs => wfV v && wfItems vs

/-- Well-formedness of dictionary entries: byte-valued keys, well-formed
values, adjacent keys strictly ascending. -/
def wfEntries : List (List Nat × PdfVariant) → Bool
  | [] => true
  | [(k, v)] => k.all (· < 256) && wfV v
  | (k1, v1) :: (k2, v2) :: rest =>
    k1.all (· < 256) && wfV v1 && keyLt k1 k2 && wfEntries ((k2, v2) :: rest)
end

/-- Is `b` a byte that can start a numeric token? -/
def isNumStart (b : Nat) : Bool :=
  (48 ≤ b && b ≤ 57) || b = 45 || b = 43 || b = 46

/-- Parser mode: reading one variant, the items of an open array, or the
entries of an open dictionary (with the value accumulated so far). -/
inductive PMode where
  | top
  | items (acc : List PdfVariant)
  | entries (acc : List (List Nat × PdfVariant))

/-- The recursive-descent variant parser (`TryReadNextVariant`, spec §4.2),
fuel-bounded to keep the recursion structural.  Dispatches on the next
byte after whitespace/comment skipping: `[` array, `<<` dictionary,
`<` hex string, `(` literal string, `/` name, numeric-start bytes a
number/real or — via `tryRefTail` two-token lookahead — a reference, and
otherwise the keywords `true`, `false`, `null`.  Dictionary entries are
inserted with `std::map` ordering.  Returns the variant and the unread
remainder, or `none` on malformed syntax or exhausted input. -/
def parseCore : Nat → PMode → List Nat → Option (PdfVariant × List Nat)
  | 0, _, _ => none
  | fuel + 1, .top, input =>
    match skipWsC input with
    | [] => none
    | c :: r =>
      if c = 91 then parseCore fuel (.items []) r
      else if c = 60 then
        match r with
        | 60 :: r2 => parseCore fuel (.entries []) r2
        | _ =>
          match readHex none [] r with
          | some (bs, rest) => some (.string true bs, rest)
          | none => none
      else if c = 40 then
        match readLit (r.length + 1) 0 [] r with
        | some (bs, rest) => some (.string false bs, rest)
        | none => none
      else if c = 47 then
        let (nm, rest) := readName (r.length + 1) [] r
        some (.name nm, rest)
      else if isNumStart c then
        match readNumTok (c :: r) with
        | none => none
        | some (t, rest) =>
          if t.hasDot then some (.real t.realVal, rest)
          else if t.neg then some (.number t.intVal, rest)
          else
            match tryRefTail rest with
            | some (g, rest2) => some (.ref (digitsToNat t.intDs) g, rest2)
            | none => some (.number t.intVal, rest)
      else
        let (kw, rest) := readKw [] (c :: r)
        if kw = [116, 114, 117, 101] then some (.bool true, rest)
        else if kw = [102, 97, 108, 115, 101] then some (.bool false, rest)
        else if kw = [110, 117, 108, 108] then some (.null, rest)
        else none
  | fuel + 1, .items acc, input =>
    match skipWsC input with
    | [] => none
    | c :: r =>
      if c = 93 then some (.array acc.reverse, r)
      else
        match parseCore fuel .top (c :: r) with
        | some (v, rest) => parseCore fuel (.items (v :: acc)) rest
        | none => none
  | fuel + 1, .entries acc, input =>
    match skipWsC input with
    | 62 :: 62 :: r => some (.dict acc, r)
    | 47 :: r =>
      let (k, rest) := readName (r.length + 1) [] r
      match parseCore fuel .top rest with
      | some (v, rest2) => parseCore fuel (.entries (dictInsert acc k v)) rest2
      | none => none
    | _ => none

/-- Runs `TryReadNextVariant` on a whole buffer: parse one variant with
sufficient fuel, dropping the remainder. -/
def parseTop (l : List Nat) : Option PdfVariant :=
  (parseCore (l.length + 1) .top l).map Prod.fst

/-- The lexer step `TryReadNextToken` (spec §4.1): skip whitespace and comments; end of
input yields no token; `<<`/`>>` are two-byte tokens distinguished by
lookahead; other delimiter bytes are one-byte tokens; otherwise a maximal
run of regular bytes.  Returns the raw token and the remainder. -/
def tryReadNextToken (input : List Nat) : Option (List Nat × List Nat) :=
  match skipWsC input with
  | [] => none
  | c :: r =>
    if c = 60 then
      match r with
      | 60 :: r2 => some ([60, 60], r2)
      | _ => some ([60], r)
    else if c = 62 then
      match r with
      | 62 :: r2 => some ([62, 62], r2)
      | _ => some ([62], r)
    else if isDelim c then some ([c], r)
    else
      let (tok, rest) := readKw [] (c :: r)
      (tok, rest)

/-- Repeated `TryReadNextToken` until it yields no token, collecting the
token stream and the final residue. -/
def tokenizeAux : Nat → List Nat → (List (List Nat) × List Nat)
  | 0, l => ([], l)
  | fuel + 1, l =>
    match tryReadNextToken l with
    | none => ([], l)
    | some (t, rest) =>
      let (ts, r) := tokenizeAux fuel rest
      (t :: ts, r)

/-- The full token stream of a buffer and the residue after the tokenizer
first reports "no token". -/
def tokenize (l : List Nat) : List (List Nat) × List Nat :=
  tokenizeAux (l.length + 1) l

mutual
/-- Fuel sufficient for `parseCore` to parse the canonical format of a
variant (one unit per parser step that recurses). -/
def fuelV : PdfVariant → Nat
  | .array items => 1 + fuelItems items
  | .dict entries => 1 + fuelEntries entries
  | _ => 1

/-- Fuel sufficient to parse the formatted tail of an array. -/
def fuelItems : List PdfVariant → Nat
  | [] => 1
  | v :: vs => 1 + fuelV v + fuelItems vs

/-- Fuel sufficient to parse formatted dictionary entries. -/
def fuelEntries : List (List Nat × PdfVariant) → Nat
  | [] => 1
  | (_, v) :: rest => 1 + fuelV v + fuelEntries rest
end

/-- A continuation that can legally follow a formatted variant: end of
input, or a space or newline separator (the only separators the canonical
formatter emits). -/
def Cont (rest : List Nat) : Prop :=
  rest = [] ∨ (∃ r, rest = 32 :: r) ∨ (∃ r, rest = 10 :: r)

/-- Is the variant a plain integer number (the only shape subject to the
reference two-token lookahead)? -/
def numberLike : PdfVariant → Bool
  | .number _ => true
  | _ => false

/-- A continuation valid after formatting `V`: a legal separator, and if
`V` is a plain number the reference lookahead must fail on it. -/
def Good (V : PdfVariant) (rest : List Nat) : Prop :=
  Cont rest ∧ (numberLike V = true → tryRefTail rest = none)

/-! ## The dictionary map (C1)

`PdfDictionary` stores its entries in `std::map<PdfName, PdfObject> m_Map`
(PdfDictionary.h line 218/241); `AddKey` inserts into that map.  The map
model is `dictInsert` above; iteration (`begin()`/`end()`, used by `Write`)
visits entries in the map's key order. -/

/-- The key sequence a dictionary iteration/Write visits. -/
def dictKeys (m : List (List Nat × PdfVariant)) : List (List Nat) := m.map Prod.fst

/-- Apply a sequence of `AddKey` calls to a dictionary. -/
def addKeys (m : List (List Nat × PdfVariant)) (ops : List (List Nat × PdfVariant)) :
    List (List Nat × PdfVariant) :=
  ops.foldl (fun m kv => dictInsert m kv.1 kv.2) m

/-! ## The object dirty flag (C2)

Modelled from the spec: `PdfObject.cpp` is not in the source tree.  The
model follows spec §4.3 (every mutator sets the dirty flag, plain getters
never do, construction starts clean) constrained by the repository's own
tests `testIsDirtyTrue`/`testIsDirtyFalse` (part_000), which require that
setters on objects created through a document's store leave `IsDirty()`
true while the same setters on standalone objects leave it false: the
flag is only set when the object is owned by a document (is indirect). -/

/-- A pdfmm object: an owned variant, optional stream payload, whether the
object is document-owned (indirect), and the dirty flag. -/
structure PdfObject where
  variant : PdfVariant
  streamData : Option (List Nat)
  isIndirect : Bool
  dirty : Bool

/-- Construct a standalone `PdfObject` from a variant (`PdfObject(v)`):
not document-owned, dirty flag clear. -/
def PdfObject.fromVariant (v : PdfVariant) : PdfObject :=
  ⟨v, none, false, false⟩

/-- The store's `CreateObject` (`PdfIndirectObjectList::CreateObject`): a freshly minted document-owned
object, dirty flag clear (spec §3: created Loaded and dirty=false). -/
def createObject (v : PdfVariant) : PdfObject :=
  ⟨v, none, true, false⟩

/-- The internal `PdfObject::SetDirty`: the flag is raised only for document-owned
objects (standalone objects have no store to flush to). -/
def PdfObject.setDirty (o : PdfObject) : PdfObject :=
  if o.isIndirect then { o with dirty := true } else o

/-- The store's explicit dirty reset (after a successful flush). -/
def PdfObject.resetDirty (o : PdfObject) : PdfObject :=
  { o with dirty := false }

/-- The observable operations on an object: the `Set*` family, the
structural `Add*` mutators, a stream write, whole-variant assignment, and
a plain getter (which returns data and must not change any state). -/
inductive ObjOp where
  | setBool (b : Bool)
  | setNumber (n : Int)
  | setReal (m : Int)
  | setString (s : List Nat)
  | setName (s : List Nat)
  | setReference (num gen : Nat)
  | arrayAdd (v : PdfVariant)
  | dictAddKey (k : List Nat) (v : PdfVariant)
  | streamSet (data : List Nat)
  | assign (v : PdfVariant)
  | getter

/-- Does the operation mutate (everything except a plain getter)? -/
def ObjOp.isMutator : ObjOp → Bool
  | .getter => false
  | _ => true

/-- Apply one operation to an object.  Every mutator routes through
`setDirty`; a getter returns the object unchanged. -/
def applyOp (o : PdfObject) : ObjOp → PdfObject
  | .setBool b => ({ o with variant := .bool b }).setDirty
  | .setNumber n => ({ o with variant := .number n }).setDirty
  | .setReal m => ({ o with variant := .real m }).setDirty
  | .setString s => ({ o with variant := .string false s }).setDirty
  | .setName s => ({ o with variant := .name s }).setDirty
  | .setReference num gen => ({ o with variant := .ref num gen }).setDirty
  | .arrayAdd v =>
    (match o.variant with
     | .array items => { o with variant := .array (items ++ [v]) }
     | _ => o).setDirty
  | .dictAddKey k v =>
    (match o.variant with
     | .dict entries => { o with variant := .dict (dictInsert entries k v) }
     | _ => o).setDirty
  | .streamSet data => ({ o with streamData := some data }).setDirty
  | .assign v => ({ o with variant := v }).setDirty
  | .getter => o

/-- Apply a sequence of operations. -/
def applyOps (o : PdfObject) (ops : List ObjOp) : PdfObject :=
  ops.foldl applyOp o

/-! ## XRef stream `/W` validation (C8)

Modelled from the spec: `PdfXRefStreamParserObject.cpp` is not in the
source tree.  The header (PdfXRefStreamParserObject.h lines 31–32) fixes
`W_ARRAY_SIZE = 3` and `W_MAX_BYTES = 4`; spec §4.4 requires a malformed
`/W` array — not exactly 3 nonnegative widths of at most 4 bytes each —
to be reported as a structural xref error, never silently defaulted. -/

/-- Constant `W_ARRAY_SIZE` (PdfXRefStreamParserObject.h line 31). -/
def W_ARRAY_SIZE : Nat := 3

/-- Constant `W_MAX_BYTES` (PdfXRefStreamParserObject.h line 32). -/
def W_MAX_BYTES : Nat := 4

/-- The typed structural xref error of spec §7. -/
inductive PdfErrorCode where
  | invalidXRefStream

/-- Validate the `/W` array of a cross-reference stream: exactly
`W_ARRAY_SIZE` nonnegative widths, each at most `W_MAX_BYTES` bytes,
otherwise the typed `InvalidXRefStream` error. -/
def validateW (w : List Int) : Except PdfErrorCode (Int × Int × Int) :=
  match w with
  | [a, b, c] =>
    if 0 ≤ a ∧ a ≤ (W_MAX_BYTES : Int) ∧ 0 ≤ b ∧ b ≤ (W_MAX_BYTES : Int) ∧
        0 ≤ c ∧ c ≤ (W_MAX_BYTES : Int) then
      Except.ok (a, b, c)
    else Except.error PdfErrorCode.invalidXRefStream
  | _ => Except.error PdfErrorCode.invalidXRefStream

/-! ## Indirect object parsing (C9)

Modelled from the spec: `PdfParserObject.cpp` is not in the source tree.
`ParseFile` (spec §4.3) reads the `N G obj` header, then the body via the
variant parser, then `endobj`; the repository test `testEmptyObject`
(part_000 lines 26–34) pins that a header immediately followed by
`endobj` yields the Null value. -/

/-- Are all bytes decimal digits (a nonempty object/generation number)? -/
def allDigits (l : List Nat) : Bool :=
  !l.isEmpty && l.all (fun c => 48 ≤ c && c ≤ 57)

/-- Models `PdfParserObject::ParseFile` with eager load: read the
`N G obj` header, then either `endobj` at once (empty body, Null value)
or one variant followed by `endobj`. -/
def parseObjectFile (input : List Nat) : Option PdfVariant :=
  match tryReadNextToken input with
  | none => none
  | some (t1, r1) =>
    if allDigits t1 then
      match tryReadNextToken r1 with
      | none => none
      | some (t2, r2) =>
        if allDigits t2 then
          match tryReadNextToken r2 with
          | none => none
          | some (t3, r3) =>
            if t3 = bytes "obj" then
              match tryReadNextToken r3 with
              | none => none
              | some (t4, _) =>
                if t4 = bytes "endobj" then some PdfVariant.null
                else
                  match parseCore (r3.length + 1) PMode.top r3 with
                  | some (v, r4) =>
                    match tryReadNextToken r4 with
                    | some (t5, _) => if t5 = bytes "endobj" then some v else none
                    | none => none
                  | none => none
            else none
        else none
    else none

/-! ## Painter word wrap (C10) -/

/-- The painter method `GetMultiLineTextAsLines` (part_001 lines 814–819): the
method unconditionally builds a one-element vector holding the input text
and returns it (`// FIX-ME: This method is currently broken, just rewrite
it later`), before any of the word-wrap logic below the early return, so
the `width` and `skipSpaces` arguments are never inspected.  The `double`
width is embedded as a parameter of arbitrary type because the function
never looks at it. -/
def GetMultiLineTextAsLines {W : Type} (_width : W) (text : List Nat)
    (_skipSpaces : Bool) : List (List Nat) :=
  [text]

/-- The token stream `testTokens`/`testComments` expect. -/
def tokensExpected : List (List Nat) :=
  [bytes "613", bytes "0", bytes "obj", bytes "<<", bytes "/", bytes "Length",
   bytes "141", bytes "/", bytes "Filter", bytes "[", bytes "/",
   bytes "ASCII85Decode", bytes "/", bytes "FlateDecode", bytes "]",
   bytes ">>", bytes "endobj"]

/-- The dictionary-and-array variant used as a concrete round-trip witness. -/
def sampleVariant : PdfVariant :=
  .array [.ref 2 0, .string false (bytes "Test Data"), .number 4,
          .dict [(bytes "Key", .name (bytes "Data"))], .real 3500000,
          .string true [255, 235, 4], .bool true, .null]

/-! ## Helper lemmas: byte classes and scanning -/

theorem digit_not_ws {c : Nat} (h1 : 48 ≤ c) (h2 : c ≤ 57) : isWs c = false := by
  simp only [isWs, Bool.or_eq_false_iff, decide_eq_false_iff_not]
  omega

theorem digit_isRegular {c : Nat} (h1 : 48 ≤ c) (h2 : c ≤ 57) : isRegular c = true := by
  simp only [isRegular, isWs, isDelim, Bool.and_eq_true, Bool.not_eq_true',
    Bool.or_eq_false_iff, decide_eq_false_iff_not]
  omega

theorem skipWsC_nil : skipWsC [] = [] := rfl

theorem skipWsC_ws {c : Nat} (l : List Nat) (h : isWs c = true) :
    skipWsC (c :: l) = skipWsC l := by
  simp [skipWsC, skipWsAux, h]

theorem skipWsC_stop {c : Nat} (l : List Nat) (h1 : isWs c = false) (h2 : c ≠ 37) :
    skipWsC (c :: l) = c :: l := by
  simp [skipWsC, skipWsAux, h1, h2]

theorem Cont_termOk {rest : List Nat} (h : Cont rest) : termOk rest = true := by
  rcases h with h | ⟨r, h⟩ | ⟨r, h⟩ <;> subst h <;> rfl

theorem readDigitVals_stop {l : List Nat}
    (h : ∀ c r, l = c :: r → ¬(48 ≤ c ∧ c ≤ 57)) : readDigitVals l = ([], l) := by
  cases l with
  | nil => rfl
  | cons c r => simp [readDigitVals, h c r rfl]

theorem termOk_not_digit {c : Nat} {r : List Nat} (h : termOk (c :: r) = true) :
    ¬(48 ≤ c ∧ c ≤ 57) := by
  intro hc
  simp only [termOk, Bool.not_eq_true'] at h
  rw [digit_isRegular hc.1 hc.2] at h
  exact absurd h (by decide)

theorem readDigitVals_map {ds : List Nat} {rest : List Nat}
    (h : ∀ d ∈ ds, d < 10)
    (h2 : ∀ c r, rest = c :: r → ¬(48 ≤ c ∧ c ≤ 57)) :
    readDigitVals (ds.map (· + 48) ++ rest) = (ds, rest) := by
  induction ds with
  | nil => simpa using readDigitVals_stop h2
  | cons d ds ih =>
    have hd : d < 10 := h d (List.mem_cons_self d ds)
    have hrec := ih (fun x hx => h x (List.mem_cons_of_mem d hx))
    simp only [List.map_cons, List.cons_append, readDigitVals]
    rw [if_pos (by omega)]
    simp [hrec]

/-! ## Helper lemmas: decimal digits round-trip -/

theorem natDigitsAux_eq_append :
    ∀ (n fuel : Nat) (acc : List Nat), n < fuel →
      natDigitsAux fuel n acc = natDigits n ++ acc := by
  intro n
  induction n using Nat.strong_induction_on with
  | _ n ih =>
    intro fuel acc h
    cases fuel with
    | zero => omega
    | succ fuel =>
      by_cases h10 : n < 10
      · simp [natDigitsAux, natDigits, h10]
      · have hdiv : n / 10 < n := Nat.div_lt_self (by omega) (by omega)
        rw [show natDigitsAux (fuel + 1) n acc = natDigitsAux fuel (n / 10) (n % 10 :: acc) by
          simp [natDigitsAux, h10]]
        rw [ih (n / 10) hdiv fuel (n % 10 :: acc) (by omega)]
        have h2 : natDigits n = natDigits (n / 10) ++ [n % 10] := by
          show natDigitsAux (n + 1) n [] = _
          rw [show natDigitsAux (n + 1) n [] = natDigitsAux n (n / 10) [n % 10] by
            simp [natDigitsAux, h10]]
          exact ih (n / 10) hdiv n [n % 10] (by omega)
        rw [h2]
        simp

theorem natDigits_eq (n : Nat) :
    natDigits n = if n < 10 then [n] else natDigits (n / 10) ++ [n % 10] := by
  by_cases h10 : n < 10
  · simp [natDigits, natDigitsAux, h10]
  · have hdiv : n / 10 < n := Nat.div_lt_self (by omega) (by omega)
    have h1 : natDigits n = natDigitsAux n (n / 10) [n % 10] := by
      simp [natDigits, natDigitsAux, h10]
    rw [h1, natDigitsAux_eq_append (n / 10) n [n % 10] (by omega)]
    simp [h10]

theorem natDigits_ne_nil (n : Nat) : natDigits n ≠ [] := by
  rw [natDigits_eq]
  split <;> simp

theorem natDigits_all_lt (n : Nat) : ∀ d ∈ natDigits n, d < 10 := by
  induction n using Nat.strong_induction_on with
  | _ n ih =>
    rw [natDigits_eq]
    split
    · intro d hd
      simp at hd
      omega
    · intro d hd
      rw [List.mem_append] at hd
      rcases hd with hd | hd
      · exact ih (n / 10) (Nat.div_lt_self (by omega) (by omega)) d hd
      · simp at hd
        omega

theorem digitsToNat_append_singleton (ds : List Nat) (d : Nat) :
    digitsToNat (ds ++ [d]) = 10 * digitsToNat ds + d := by
  simp [digitsToNat, List.foldl_append]

theorem digitsToNat_natDigits (n : Nat) : digitsToNat (natDigits n) = n := by
  induction n using Nat.strong_induction_on with
  | _ n ih =>
    rw [natDigits_eq]
    split
    · simp [digitsToNat]
    · rw [digitsToNat_append_singleton,
        ih (n / 10) (Nat.div_lt_self (by omega) (by omega))]
      omega

theorem digitsToNat_replicate_zero (k : Nat) (ds : List Nat) :
    digitsToNat (List.replicate k 0 ++ ds) = digitsToNat ds := by
  induction k with
  | zero => simp
  | succ k ih =>
    rw [List.replicate_succ]
    simpa [digitsToNat] using ih

theorem natDigits_length_le {n k : Nat} (hk : 0 < k) (h : n < 10 ^ k) :
    (natDigits n).length ≤ k := by
  induction k generalizing n with
  | zero => omega
  | succ k ih =>
    rw [natDigits_eq]
    split
    · simp
    · rename_i h10
      have hk' : 0 < k := by
        rcases Nat.eq_zero_or_pos k with hk0 | hk0
        · subst hk0; simp at h; omega
        · exact hk0
      have hdivlt : n / 10 < 10 ^ k := by
        rw [Nat.div_lt_iff_lt_mul (by omega)]
        calc n < 10 ^ (k + 1) := h
        _ = 10 ^ k * 10 := by ring
      have := ih hk' hdivlt
      simp [List.length_append]
      omega

theorem natChars_cons (n : Nat) :
    ∃ c tl, natChars n = c :: tl ∧ 48 ≤ c ∧ c ≤ 57 := by
  obtain ⟨d, ds, hds⟩ := List.exists_cons_of_ne_nil (natDigits_ne_nil n)
  have hd : d < 10 := natDigits_all_lt n d (by rw [hds]; exact List.mem_cons_self d ds)
  refine ⟨d + 48, ds.map (· + 48), ?_, by omega, by omega⟩
  simp [natChars, hds]

/-! ## Helper lemmas: numeric tokens -/

theorem readSign_not_sign {c : Nat} (l : List Nat) (h1 : c ≠ 45) (h2 : c ≠ 43) :
    readSign (c :: l) = (false, c :: l) := by
  simp [readSign, h1, h2]

theorem termOk_not_dot {c : Nat} {r : List Nat} (h : termOk (c :: r) = true) : c ≠ 46 := by
  intro hc
  subst hc
  simp only [termOk, Bool.not_eq_true'] at h
  rw [show isRegular 46 = true from by decide] at h
  exact absurd h (by decide)

theorem dotSplit_termOk {l : List Nat} (h : termOk l = true) : dotSplit l = none := by
  cases l with
  | nil => rfl
  | cons c r => simp [dotSplit, termOk_not_dot h]

theorem readSign_natChars (n : Nat) (rest : List Nat) :
    readSign (natChars n ++ rest) = (false, natChars n ++ rest) := by
  obtain ⟨c, tl, hc, h48, h57⟩ := natChars_cons n
  rw [hc]
  exact readSign_not_sign _ (by omega) (by omega)

theorem readDigitVals_natChars (n : Nat) (rest : List Nat)
    (h2 : ∀ c r, rest = c :: r → ¬(48 ≤ c ∧ c ≤ 57)) :
    readDigitVals (natChars n ++ rest) = (natDigits n, rest) := by
  have := @readDigitVals_map (natDigits n) rest (natDigits_all_lt n) h2
  simpa [natChars] using this

theorem readNumTok_nat (n : Nat) (rest : List Nat) (h : termOk rest = true) :
    readNumTok (natChars n ++ rest) = some (⟨false, natDigits n, false, []⟩, rest) := by
  have hdig : readDigitVals (natChars n ++ rest) = (natDigits n, rest) :=
    readDigitVals_natChars n rest (fun c r hcr => by subst hcr; exact termOk_not_digit h)
  simp only [readNumTok, readSign_natChars, hdig, dotSplit_termOk h]
  rw [if_neg (by simpa using natDigits_ne_nil n), if_pos h]

theorem readNumTok_natChars_neg (n : Nat) (rest : List Nat) (h : termOk rest = true) :
    readNumTok (45 :: (natChars n ++ rest)) = some (⟨true, natDigits n, false, []⟩, rest) := by
  have hsign : readSign (45 :: (natChars n ++ rest)) = (true, natChars n ++ rest) := by
    simp [readSign]
  have hdig : readDigitVals (natChars n ++ rest) = (natDigits n, rest) :=
    readDigitVals_natChars n rest (fun c r hcr => by subst hcr; exact termOk_not_digit h)
  simp only [readNumTok, hsign, hdig, dotSplit_termOk h]
  rw [if_neg (by simpa using natDigits_ne_nil n), if_pos h]

/-- The six fraction digits of the canonical rendering of `r < 10^6`. -/
theorem frac_digits_len {r : Nat} (h : r < 1000000) :
    (List.replicate (6 - (natDigits r).length) 0 ++ natDigits r).length = 6 := by
  have := @natDigits_length_le r 6 (by omega) (by omega : r < 10 ^ 6)
  simp [List.length_append, List.length_replicate]
  omega

theorem readNumTok_real_core (q r : Nat) (rest : List Nat)
    (h : termOk rest = true) :
    readNumTok (natChars q ++
        (46 :: (List.replicate (6 - (natDigits r).length) 48 ++
          ((natDigits r).map (· + 48) ++ rest)))) =
      some (⟨false, natDigits q, true,
        List.replicate (6 - (natDigits r).length) 0 ++ natDigits r⟩, rest) := by
  have hdig1 : readDigitVals (natChars q ++ (46 :: (List.replicate (6 - (natDigits r).length) 48 ++
      ((natDigits r).map (· + 48) ++ rest)))) =
      (natDigits q, 46 :: (List.replicate (6 - (natDigits r).length) 48 ++
        ((natDigits r).map (· + 48) ++ rest))) := by
    refine readDigitVals_natChars q _ (fun c r hcr => ?_)
    injection hcr with h1 h2
    subst h1
    omega
  have hfrac : (List.replicate (6 - (natDigits r).length) 48 ++
      (natDigits r).map (· + 48)) ++ rest =
      ((List.replicate (6 - (natDigits r).length) 0 ++ natDigits r).map (· + 48)) ++ rest := by
    simp [List.map_append, List.map_replicate]
  have hdig2 : readDigitVals ((List.replicate (6 - (natDigits r).length) 48 ++
      (natDigits r).map (· + 48)) ++ rest) =
      (List.replicate (6 - (natDigits r).length) 0 ++ natDigits r, rest) := by
    rw [hfrac]
    refine readDigitVals_map ?_ (fun c r hcr => by subst hcr; exact termOk_not_digit h)
    intro d hd
    rw [List.mem_append] at hd
    rcases hd with hd | hd
    · simp at hd
      omega
    · exact natDigits_all_lt r d hd
  rw [List.append_assoc] at hdig2
  simp only [readNumTok, readSign_natChars, hdig1]
  simp [dotSplit, hdig2, h, natDigits_ne_nil q]

theorem readKw_stop (acc : List Nat) {l : List Nat} (h : termOk l = true) :
    readKw acc l = (acc.reverse, l) := by
  cases l with
  | nil => rfl
  | cons c r =>
    simp only [termOk, Bool.not_eq_true'] at h
    simp [readKw, h]

theorem readKw_run {ks : List Nat} (h : ∀ k ∈ ks, isRegular k = true) :
    ∀ (acc : List Nat) {rest : List Nat}, termOk rest = true →
      readKw acc (ks ++ rest) = (acc.reverse ++ ks, rest) := by
  induction ks with
  | nil =>
    intro acc rest hrest
    simpa using readKw_stop acc hrest
  | cons k ks ih =>
    intro acc rest hrest
    have hk := h k (List.mem_cons_self k ks)
    simp only [List.cons_append, readKw, hk, if_true, List.append_eq]
    rw [ih (fun x hx => h x (List.mem_cons_of_mem k hx)) (k :: acc) hrest]
    simp

/-! ## Helper lemmas: names, strings -/

theorem hexVal_hexChar : ∀ v < 16, hexVal (hexChar v) = some v := by decide

theorem hexChar_ne_62 : ∀ v < 16, hexChar v ≠ 62 := by decide

theorem isNameRegular_isRegular {b : Nat} (h : isNameRegular b = true) :
    isRegular b = true := by
  simp only [isNameRegular, Bool.and_eq_true, decide_eq_true_eq, Bool.not_eq_true',
    bne_iff_ne, ne_eq] at h
  simp only [isRegular, Bool.and_eq_true, Bool.not_eq_true']
  constructor
  · simp only [isWs, Bool.or_eq_false_iff, decide_eq_false_iff_not]
    omega
  · exact h.1.2

theorem readName_esc {bs : List Nat} (hb : ∀ b ∈ bs, b < 256) :
    ∀ (acc : List Nat) {rest : List Nat} (fuel : Nat), (escName bs).length < fuel →
      termOk rest = true →
      readName fuel acc (escName bs ++ rest) = (acc.reverse ++ bs, rest) := by
  induction bs with
  | nil =>
    intro acc rest fuel hfuel hrest
    cases fuel with
    | zero => omega
    | succ fuel =>
      cases rest with
      | nil => simp [readName]
      | cons c r =>
        simp only [termOk, Bool.not_eq_true'] at hrest
        simp [readName, hrest]
  | cons b bs ih =>
    intro acc rest fuel hfuel hrest
    have hb0 : b < 256 := hb b (List.mem_cons_self b bs)
    have hbs := fun x hx => hb x (List.mem_cons_of_mem b hx)
    by_cases hreg : isNameRegular b = true
    · simp only [escName, hreg, if_true, List.cons_append] at hfuel ⊢
      cases fuel with
      | zero => omega
      | succ fuel =>
        have hbreg := isNameRegular_isRegular hreg
        have hb35 : b ≠ 35 := by
          simp only [isNameRegular, Bool.and_eq_true, decide_eq_true_eq, ne_eq] at hreg
          exact hreg.2
        simp only [readName, hbreg, if_true, hb35, if_neg hb35, List.append_eq]
        rw [ih hbs (b :: acc) fuel (by simp at hfuel ⊢; omega) hrest]
        simp
    · simp only [escName, hreg, if_false, List.cons_append] at hfuel ⊢
      cases fuel with
      | zero => omega
      | succ fuel =>
        have h16a : b / 16 % 16 < 16 := Nat.mod_lt _ (by omega)
        have h16b : b % 16 < 16 := Nat.mod_lt _ (by omega)
        simp only [readName, show isRegular 35 = true from by decide, if_true, if_pos rfl,
          List.cons_append, List.append_eq, hexVal_hexChar _ h16a, hexVal_hexChar _ h16b]
        have hby : b / 16 % 16 * 16 + b % 16 = b := by omega
        rw [hby, ih hbs (b :: acc) fuel (by simp at hfuel ⊢; omega) hrest]
        simp

theorem readLit_esc (bs : List Nat) :
    ∀ (acc rest : List Nat) (fuel : Nat), (escLit bs).length < fuel →
      readLit fuel 0 acc (escLit bs ++ (41 :: rest)) = some (acc.reverse ++ bs, rest) := by
  induction bs with
  | nil =>
    intro acc rest fuel hfuel
    cases fuel with
    | zero => omega
    | succ fuel => simp [readLit]
  | cons b bs ih =>
    intro acc rest fuel hfuel
    simp only [escLit] at hfuel ⊢
    split_ifs at hfuel ⊢ with h1 h2 h3 h4 h5 h6 h7 h8 <;>
      (cases fuel with
       | zero => omega
       | succ fuel => ?_)
    · subst h1
      simp only [List.cons_append, List.append_eq, readLit]
      rw [ih (40 :: acc) rest fuel (by simp at hfuel ⊢; omega)]
      simp
    · subst h2
      simp only [List.cons_append, List.append_eq, readLit]
      rw [ih (41 :: acc) rest fuel (by simp at hfuel ⊢; omega)]
      simp
    · subst h3
      simp only [List.cons_append, List.append_eq, readLit]
      rw [ih (92 :: acc) rest fuel (by simp at hfuel ⊢; omega)]
      simp
    · subst h4
      simp only [List.cons_append, List.append_eq, readLit]
      rw [ih (10 :: acc) rest fuel (by simp at hfuel ⊢; omega)]
      simp
    · subst h5
      simp only [List.cons_append, List.append_eq, readLit]
      rw [ih (13 :: acc) rest fuel (by simp at hfuel ⊢; omega)]
      simp
    · subst h6
      simp only [List.cons_append, List.append_eq, readLit]
      rw [ih (9 :: acc) rest fuel (by simp at hfuel ⊢; omega)]
      simp
    · subst h7
      simp only [List.cons_append, List.append_eq, readLit]
      rw [ih (8 :: acc) rest fuel (by simp at hfuel ⊢; omega)]
      simp
    · subst h8
      simp only [List.cons_append, List.append_eq, readLit]
      rw [ih (12 :: acc) rest fuel (by simp at hfuel ⊢; omega)]
      simp
    · simp only [List.cons_append, List.append_eq, readLit, if_neg h2, if_neg h1, if_neg h3]
      rw [ih (b :: acc) rest fuel (by simp at hfuel ⊢; omega)]
      simp

theorem readHex_pairs {bs : List Nat} (hb : ∀ b ∈ bs, b < 256) :
    ∀ (acc rest : List Nat),
      readHex none acc (hexBytes bs ++ (62 :: rest)) = some (acc.reverse ++ bs, rest) := by
  induction bs with
  | nil =>
    intro acc rest
    simp [readHex]
  | cons b bs ih =>
    intro acc rest
    have hb0 : b < 256 := hb b (List.mem_cons_self b bs)
    have hbs := fun x hx => hb x (List.mem_cons_of_mem b hx)
    have h16a : b / 16 % 16 < 16 := Nat.mod_lt _ (by omega)
    have h16b : b % 16 < 16 := Nat.mod_lt _ (by omega)
    simp only [hexBytes, List.cons_append, List.append_eq, readHex, hexVal_hexChar _ h16a,
      hexVal_hexChar _ h16b, if_neg (hexChar_ne_62 _ h16a), if_neg (hexChar_ne_62 _ h16b)]
    have hby : b / 16 % 16 * 16 + b % 16 = b := by omega
    rw [hby, ih hbs]
    simp

/-! ## Helper lemmas: the reference lookahead -/

theorem tryRefTail_sep (g : Nat) {rest : List Nat} (h : termOk rest = true) :
    tryRefTail (32 :: (natChars g ++ (32 :: 82 :: rest))) = some (g, rest) := by
  obtain ⟨c, tl, hc, h48, h57⟩ := natChars_cons g
  have hskip : skipWsC (32 :: (natChars g ++ (32 :: 82 :: rest))) =
      natChars g ++ (32 :: 82 :: rest) := by
    rw [skipWsC_ws _ (by decide), hc, List.cons_append,
      skipWsC_stop _ (digit_not_ws h48 h57) (by omega), ← List.cons_append, ← hc]
  have htok := readNumTok_nat g (32 :: 82 :: rest) (by rfl)
  simp only [tryRefTail, hskip, htok]
  rw [if_neg (by simp [natDigits_ne_nil g])]
  rw [show skipWsC (32 :: 82 :: rest) = 82 :: rest by
    rw [skipWsC_ws _ (by decide), skipWsC_stop _ (by decide) (by decide)]]
  simp [h, digitsToNat_natDigits]

theorem tryRefTail_none_of_head {l : List Nat} {c : Nat} {r : List Nat}
    (hskip : skipWsC l = c :: r) (h45 : c ≠ 45) (h43 : c ≠ 43) (h46 : c ≠ 46)
    (hdig : ¬(48 ≤ c ∧ c ≤ 57)) : tryRefTail l = none := by
  have hsign : readSign (c :: r) = (false, c :: r) := readSign_not_sign r h45 h43
  have hdv : readDigitVals (c :: r) = ([], c :: r) := by
    simp [readDigitVals, hdig]
  simp [tryRefTail, hskip, readNumTok, hsign, hdv, dotSplit, h46]

theorem tryRefTail_none_nil {l : List Nat} (hskip : skipWsC l = []) :
    tryRefTail l = none := by
  simp [tryRefTail, hskip, readNumTok, readSign, readDigitVals, dotSplit]

theorem readNumTok_neg_fst {l r : List Nat} {t : NumTok}
    (h : readNumTok (45 :: l) = some (t, r)) : t.neg = true := by
  have hsign : readSign (45 :: l) = (true, l) := by simp [readSign]
  simp only [readNumTok, hsign] at h
  split at h <;> split_ifs at h <;>
    (injection h with h'
     injection h' with h1 h2
     rw [← h1])

theorem tryRefTail_none_neg {l r : List Nat} (hskip : skipWsC l = 45 :: r) :
    tryRefTail l = none := by
  simp only [tryRefTail, hskip]
  rcases htok : readNumTok (45 :: r) with _ | ⟨t, r2⟩
  · rfl
  · simp [readNumTok_neg_fst htok]

/-- The head byte of a formatted variant: never whitespace, `%`, `R`,
or `]`, so whitespace skipping stops at it, it never continues a comment,
and it can never satisfy the reference lookahead's `R` check. -/
theorem fmtV_cons (V : PdfVariant) :
    ∃ c l, fmtV V = c :: l ∧ isWs c = false ∧ c ≠ 37 ∧ c ≠ 82 ∧ c ≠ 93 := by
  cases V with
  | null => exact ⟨110, _, rfl, by decide, by decide, by decide, by decide⟩
  | bool b =>
    cases b with
    | true => exact ⟨116, _, rfl, by decide, by decide, by decide, by decide⟩
    | false => exact ⟨102, _, rfl, by decide, by decide, by decide, by decide⟩
  | number n =>
    by_cases hn : n < 0
    · refine ⟨45, natChars n.natAbs, ?_, by decide, by decide, by decide, by decide⟩
      simp [fmtV, intChars, hn]
    · obtain ⟨c, tl, hc, h48, h57⟩ := natChars_cons n.natAbs
      refine ⟨c, tl, ?_, digit_not_ws h48 h57, by omega, by omega, by omega⟩
      simp [fmtV, intChars, hn, hc]
  | real m =>
    by_cases hm : m < 0
    · refine ⟨45, natChars (m.natAbs / 1000000) ++
        (46 :: (List.replicate (6 - (natDigits (m.natAbs % 1000000)).length) 48 ++
          (natDigits (m.natAbs % 1000000)).map (· + 48))),
        ?_, by decide, by decide, by decide, by decide⟩
      simp [fmtV, realChars, hm]
    · obtain ⟨c, tl, hc, h48, h57⟩ := natChars_cons (m.natAbs / 1000000)
      refine ⟨c, tl ++ (46 :: (List.replicate (6 - (natDigits (m.natAbs % 1000000)).length) 48 ++
          (natDigits (m.natAbs % 1000000)).map (· + 48))),
        ?_, digit_not_ws h48 h57, by omega, by omega, by omega⟩
      simp [fmtV, realChars, hm, hc]
  | string hex bs =>
    cases hex with
    | true => exact ⟨60, _, rfl, by decide, by decide, by decide, by decide⟩
    | false => exact ⟨40, _, rfl, by decide, by decide, by decide, by decide⟩
  | name bs => exact ⟨47, _, rfl, by decide, by decide, by decide, by decide⟩
  | ref n g =>
    obtain ⟨c, tl, hc, h48, h57⟩ := natChars_cons n
    refine ⟨c, tl ++ ((32 :: natChars g) ++ [32, 82]), ?_, digit_not_ws h48 h57,
      by omega, by omega, by omega⟩
    simp [fmtV, hc]
  | array items => exact ⟨91, _, rfl, by decide, by decide, by decide, by decide⟩
  | dict entries => exact ⟨60, _, rfl, by decide, by decide, by decide, by decide⟩

/-- The formatted tail of an array always begins with a space byte. -/
theorem fmtItems_cons (vs : List PdfVariant) : ∃ Y, fmtItems vs = 32 :: Y := by
  cases vs <;> simp [fmtItems]

/-- After whitespace skipping, the formatted tail of an array starts with a
byte that is neither `R` nor whitespace nor `%`. -/
theorem fmtItems_skip_head (vs : List PdfVariant) (rest : List Nat) :
    ∃ c r, skipWsC (fmtItems vs ++ rest) = c :: r ∧ isWs c = false ∧ c ≠ 82 := by
  cases vs with
  | nil =>
    refine ⟨93, rest, ?_, by decide, by decide⟩
    show skipWsC (32 :: 93 :: rest) = 93 :: rest
    rw [skipWsC_ws _ (by decide), skipWsC_stop _ (by decide) (by decide)]
  | cons v vs =>
    obtain ⟨c, l, hc, hws, h37, h82, h93⟩ := fmtV_cons v
    refine ⟨c, l ++ (fmtItems vs ++ rest), ?_, hws, h82⟩
    show skipWsC (32 :: (fmtV v ++ fmtItems vs) ++ rest) = _
    rw [List.cons_append, skipWsC_ws _ (by decide), List.append_assoc, hc,
      List.cons_append, skipWsC_stop _ hws h37]

theorem tryRefTail_ws {c : Nat} (l : List Nat) (h : isWs c = true) :
    tryRefTail (c :: l) = tryRefTail l := by
  simp only [tryRefTail, skipWsC_ws _ h]

theorem skipWsC_natChars (m : Nat) (X : List Nat) :
    skipWsC (natChars m ++ X) = natChars m ++ X := by
  obtain ⟨c, tl, hc, h48, h57⟩ := natChars_cons m
  rw [hc, List.cons_append, skipWsC_stop _ (digit_not_ws h48 h57) (by omega)]

/-- After a successful integer token, if whitespace skipping over the
remainder does not land on an `R` byte, the reference lookahead fails. -/
theorem tryRefTail_digits_noR (m : Nat) {X : List Nat} (hterm : termOk X = true)
    (h : ∀ l3, skipWsC X ≠ 82 :: l3) :
    tryRefTail (natChars m ++ X) = none := by
  simp only [tryRefTail, skipWsC_natChars]
  rw [readNumTok_nat m X hterm]
  simp only [Option.some.injEq]
  split <;> rfl

theorem realChars_nonneg {m : Int} (h : ¬m < 0) :
    realChars m = natChars (m.natAbs / 1000000) ++
      (46 :: (List.replicate (6 - (natDigits (m.natAbs % 1000000)).length) 48 ++
        (natDigits (m.natAbs % 1000000)).map (· + 48))) := by
  simp [realChars, h]

theorem realChars_neg {m : Int} (h : m < 0) :
    realChars m = 45 :: (natChars (m.natAbs / 1000000) ++
      (46 :: (List.replicate (6 - (natDigits (m.natAbs % 1000000)).length) 48 ++
        (natDigits (m.natAbs % 1000000)).map (· + 48)))) := by
  simp [realChars, h]

/-- The reference lookahead fails on a formatted real: the token has a dot. -/
theorem tryRefTail_real (m : Int) {X : List Nat} (hterm : termOk X = true) :
    tryRefTail (realChars m ++ X) = none := by
  by_cases hm : m < 0
  · rw [realChars_neg hm, List.cons_append]
    exact tryRefTail_none_neg (skipWsC_stop _ (by decide) (by decide))
  · rw [realChars_nonneg hm, List.append_assoc, List.cons_append, List.append_assoc]
    simp only [tryRefTail, skipWsC_natChars,
      readNumTok_real_core (m.natAbs / 1000000) (m.natAbs % 1000000) X hterm]
    rfl

/-- Whitespace skipping stops at a non-whitespace head, and a head that can
start no numeric token makes the reference lookahead fail at once. -/
theorem tryRefTail_cons_none {c : Nat} (tl : List Nat) (hws : isWs c = false) (h37 : c ≠ 37)
    (h45 : c ≠ 45) (h43 : c ≠ 43) (h46 : c ≠ 46) (hdig : ¬(48 ≤ c ∧ c ≤ 57)) :
    tryRefTail (c :: tl) = none :=
  tryRefTail_none_of_head (skipWsC_stop tl hws h37) h45 h43 h46 hdig

/-- The reference lookahead fails at the start of any formatted array tail:
no token there is an integer-then-`R` pattern. -/
theorem refFail_items (vs : List PdfVariant) (rest : List Nat) :
    tryRefTail (fmtItems vs ++ rest) = none := by
  cases vs with
  | nil =>
    rw [show fmtItems ([] : List PdfVariant) ++ rest = 32 :: 93 :: rest from rfl,
      tryRefTail_ws _ (by decide)]
    exact tryRefTail_cons_none (c := 93) rest (by decide) (by decide) (by decide) (by decide)
      (by decide) (by decide)
  | cons v vs =>
    rw [show fmtItems (v :: vs) ++ rest = 32 :: (fmtV v ++ (fmtItems vs ++ rest)) from by
      simp [fmtItems], tryRefTail_ws _ (by decide)]
    cases v with
    | null =>
      exact tryRefTail_cons_none (c := 110) _
        (by decide) (by decide) (by decide) (by decide) (by decide) (by decide)
    | bool b =>
      cases b with
      | true =>
        exact tryRefTail_cons_none (c := 116) _
          (by decide) (by decide) (by decide) (by decide) (by decide) (by decide)
      | false =>
        exact tryRefTail_cons_none (c := 102) _
          (by decide) (by decide) (by decide) (by decide) (by decide) (by decide)
    | number n =>
      by_cases hn : n < 0
      · rw [show fmtV (.number n) = 45 :: natChars n.natAbs from by simp [fmtV, intChars, hn],
          List.cons_append]
        exact tryRefTail_none_neg (skipWsC_stop _ (by decide) (by decide))
      · rw [show fmtV (.number n) = natChars n.natAbs from by simp [fmtV, intChars, hn]]
        obtain ⟨c, r, hcr, hws, h82⟩ := fmtItems_skip_head vs rest
        refine tryRefTail_digits_noR _ ?_ ?_
        · obtain ⟨Y, hY⟩ := fmtItems_cons vs
          rw [hY]
          rfl
        · intro l3 heq
          rw [hcr] at heq
          injection heq with h1 _
          exact h82 h1
    | real m =>
      rw [show fmtV (.real m) = realChars m from rfl]
      refine tryRefTail_real m ?_
      obtain ⟨Y, hY⟩ := fmtItems_cons vs
      rw [hY]
      rfl
    | string hex bs =>
      cases hex with
      | true =>
        exact tryRefTail_cons_none (c := 60) _
          (by decide) (by decide) (by decide) (by decide) (by decide) (by decide)
      | false =>
        exact tryRefTail_cons_none (c := 40) _
          (by decide) (by decide) (by decide) (by decide) (by decide) (by decide)
    | name bs =>
      exact tryRefTail_cons_none (c := 47) _
        (by decide) (by decide) (by decide) (by decide) (by decide) (by decide)
    | ref k g =>
      rw [show fmtV (.ref k g) ++ (fmtItems vs ++ rest) =
          natChars k ++ (32 :: (natChars g ++ (32 :: 82 :: (fmtItems vs ++ rest)))) from by
        simp [fmtV]]
      obtain ⟨c, tl, hc, h48, h57⟩ := natChars_cons g
      refine tryRefTail_digits_noR _ (by rfl) ?_
      intro l3 heq
      rw [skipWsC_ws _ (by decide), hc, List.cons_append,
        skipWsC_stop _ (digit_not_ws h48 h57) (by omega)] at heq
      injection heq with h1 _
      omega
    | array items =>
      exact tryRefTail_cons_none (c := 91) _
        (by decide) (by decide) (by decide) (by decide) (by decide) (by decide)
    | dict entries =>
      exact tryRefTail_cons_none (c := 60) _
        (by decide) (by decide) (by decide) (by decide) (by decide) (by decide)

/-- The reference lookahead fails at the start of any formatted dictionary
remainder: the next byte is `/` or `>`. -/
theorem refFail_entries (entries : List (List Nat × PdfVariant)) (rest : List Nat) :
    tryRefTail (10 :: (fmtEntries entries ++ rest)) = none := by
  rw [tryRefTail_ws _ (by decide)]
  cases entries with
  | nil =>
    exact tryRefTail_cons_none (c := 62) _
      (by decide) (by decide) (by decide) (by decide) (by decide) (by decide)
  | cons e es =>
    exact tryRefTail_cons_none (c := 47) _
      (by decide) (by decide) (by decide) (by decide) (by decide) (by decide)

/-! ## Helper lemmas: the map order -/

theorem keyLt_nil_cons (y : Nat) (ys : List Nat) : keyLt [] (y :: ys) = true := rfl

theorem keyLt_cons_nil (x : Nat) (xs : List Nat) : keyLt (x :: xs) [] = false := rfl

theorem keyLt_irrefl (a : List Nat) : keyLt a a = false := by
  induction a with
  | nil => rfl
  | cons x xs ih => simp [keyLt, ih]

theorem keyLt_asymm : ∀ {a b : List Nat}, keyLt a b = true → keyLt b a = false := by
  intro a
  induction a with
  | nil =>
    intro b h
    cases b with
    | nil => exact absurd h (by decide)
    | cons y ys => rfl
  | cons x xs ih =>
    intro b h
    cases b with
    | nil => rw [keyLt_cons_nil] at h; exact absurd h (by decide)
    | cons y ys =>
      simp only [keyLt] at h ⊢
      by_cases hxy : x < y
      · rw [if_neg (by omega), if_pos hxy]
      · rw [if_neg hxy] at h
        by_cases hyx : y < x
        · rw [if_pos hyx] at h
          exact absurd h (by decide)
        · rw [if_neg hyx] at h
          rw [if_neg hyx, if_neg hxy]
          exact ih h

theorem keyLt_trans : ∀ {a b c : List Nat},
    keyLt a b = true → keyLt b c = true → keyLt a c = true := by
  intro a
  induction a with
  | nil =>
    intro b c hab hbc
    cases b with
    | nil => exact absurd hab (by decide)
    | cons y ys =>
      cases c with
      | nil => rw [keyLt_cons_nil] at hbc; exact absurd hbc (by decide)
      | cons z zs => rfl
  | cons x xs ih =>
    intro b c hab hbc
    cases b with
    | nil => rw [keyLt_cons_nil] at hab; exact absurd hab (by decide)
    | cons y ys =>
      cases c with
      | nil => rw [keyLt_cons_nil] at hbc; exact absurd hbc (by decide)
      | cons z zs =>
        simp only [keyLt] at hab hbc ⊢
        by_cases hxy : x < y
        · by_cases hyz : y < z
          · rw [if_pos (by omega)]
          · rw [if_neg hyz] at hbc
            by_cases hzy : z < y
            · rw [if_pos hzy] at hbc
              exact absurd hbc (by decide)
            · rw [if_pos (by omega)]
        · rw [if_neg hxy] at hab
          by_cases hyx : y < x
          · rw [if_pos hyx] at hab
            exact absurd hab (by decide)
          · rw [if_neg hyx] at hab
            by_cases hyz : y < z
            · rw [if_pos (by omega)]
            · rw [if_neg hyz] at hbc
              by_cases hzy : z < y
              · rw [if_pos hzy] at hbc
                exact absurd hbc (by decide)
              · rw [if_neg hzy] at hbc
                rw [if_neg (by omega), if_neg (by omega)]
                exact ih hab hbc

theorem keyLt_ne {a b : List Nat} (h : keyLt a b = true) : a ≠ b := by
  intro he
  subst he
  rw [keyLt_irrefl] at h
  exact absurd h (by decide)

theorem keyLt_total : ∀ {a b : List Nat},
    keyLt a b = false → keyLt b a = false → a = b := by
  intro a
  induction a with
  | nil =>
    intro b hab hba
    cases b with
    | nil => rfl
    | cons y ys => rw [keyLt_nil_cons] at hab; exact absurd hab (by decide)
  | cons x xs ih =>
    intro b hab hba
    cases b with
    | nil => rw [keyLt_nil_cons] at hba; exact absurd hba (by decide)
    | cons y ys =>
      simp only [keyLt] at hab hba
      by_cases hxy : x < y
      · rw [if_pos hxy] at hab
        exact absurd hab (by decide)
      · rw [if_neg hxy] at hab
        by_cases hyx : y < x
        · rw [if_pos hyx] at hba
          exact absurd hba (by decide)
        · rw [if_neg hyx] at hab
          rw [if_neg hxy] at hba
          rw [if_neg hyx] at hba
          have hxy2 : x = y := by omega
          rw [hxy2, ih hab hba]

theorem dictKeys_cons (k : List Nat) (v : PdfVariant) (m : List (List Nat × PdfVariant)) :
    dictKeys ((k, v) :: m) = k :: dictKeys m := rfl

/-- Inserting a key greater than every key already stored appends at
the end (how the parser rebuilds an already-sorted dictionary). -/
theorem dictInsert_append :
    ∀ (acc : List (List Nat × PdfVariant)) (k : List Nat) (v : PdfVariant),
      (∀ p ∈ acc, keyLt p.1 k = true) → dictInsert acc k v = acc ++ [(k, v)] := by
  intro acc
  induction acc with
  | nil => intro k v _; rfl
  | cons p ps ih =>
    intro k v h
    obtain ⟨k0, v0⟩ := p
    have h0 : keyLt k0 k = true := h (k0, v0) (List.mem_cons_self _ _)
    have h0' : keyLt k k0 = false := keyLt_asymm h0
    simp only [dictInsert]
    rw [if_neg (by rw [h0']; exact fun he => absurd he (by decide)),
      if_neg (Ne.symm (keyLt_ne h0)),
      ih k v (fun q hq => h q (List.mem_cons_of_mem _ hq))]
    simp

/-- Keys of an insertion result are the new key or old keys. -/
theorem dictInsert_keys_subset :
    ∀ (m : List (List Nat × PdfVariant)) (k : List Nat) (v : PdfVariant) (x : List Nat),
      x ∈ dictKeys (dictInsert m k v) → x = k ∨ x ∈ dictKeys m := by
  intro m
  induction m with
  | nil =>
    intro k v x hx
    simp [dictInsert, dictKeys] at hx
    exact Or.inl hx
  | cons p ps ih =>
    intro k v x hx
    obtain ⟨k0, v0⟩ := p
    simp only [dictInsert] at hx
    split_ifs at hx with h1 h2
    · rw [dictKeys_cons, dictKeys_cons] at hx
      rw [dictKeys_cons]
      rcases List.mem_cons.mp hx with hx2 | hx2
      · exact Or.inl hx2
      · exact Or.inr hx2
    · rw [dictKeys_cons] at hx
      rw [dictKeys_cons]
      rcases List.mem_cons.mp hx with hx2 | hx2
      · exact Or.inl hx2
      · exact Or.inr (List.mem_cons_of_mem _ hx2)
    · rw [dictKeys_cons] at hx
      rw [dictKeys_cons]
      rcases List.mem_cons.mp hx with hx2 | hx2
      · exact Or.inr (hx2 ▸ List.mem_cons_self _ _)
      · rcases ih k v x hx2 with hx3 | hx3
        · exact Or.inl hx3
        · exact Or.inr (List.mem_cons_of_mem _ hx3)

/-- The `std::map` insertion keeps the stored keys strictly sorted. -/
theorem dictInsert_sorted :
    ∀ (m : List (List Nat × PdfVariant)) (k : List Nat) (v : PdfVariant),
      List.Pairwise (fun a b => keyLt a b = true) (dictKeys m) →
      List.Pairwise (fun a b => keyLt a b = true) (dictKeys (dictInsert m k v)) := by
  intro m
  induction m with
  | nil =>
    intro k v _
    simp [dictInsert, dictKeys]
  | cons p ps ih =>
    intro k v h
    obtain ⟨k0, v0⟩ := p
    rw [dictKeys_cons, List.pairwise_cons] at h
    obtain ⟨h0, hps⟩ := h
    simp only [dictInsert]
    split_ifs with h1 h2
    · rw [dictKeys_cons, dictKeys_cons, List.pairwise_cons]
      constructor
      · intro x hx
        rcases List.mem_cons.mp hx with hx2 | hx2
        · rw [hx2]
          exact h1
        · exact keyLt_trans h1 (h0 x hx2)
      · rw [List.pairwise_cons]
        exact ⟨h0, hps⟩
    · subst h2
      rw [dictKeys_cons, List.pairwise_cons]
      exact ⟨h0, hps⟩
    · rw [dictKeys_cons, List.pairwise_cons]
      constructor
      · intro x hx
        rcases dictInsert_keys_subset ps k v x hx with hx2 | hx2
        · rw [hx2]
          cases hkk : keyLt k0 k with
          | false =>
            have hk : keyLt k k0 = false := by
              cases hk2 : keyLt k k0 with
              | false => rfl
              | true => exact absurd hk2 h1
            exact absurd (keyLt_total hk hkk) h2
          | true => rfl
        · exact h0 x hx2
      · exact ih k v hps

/-! ## Helper lemmas: parsing formatted leaves -/

theorem readNumTok_real_core_neg (q r : Nat) (rest : List Nat)
    (h : termOk rest = true) :
    readNumTok (45 :: (natChars q ++
        (46 :: (List.replicate (6 - (natDigits r).length) 48 ++
          ((natDigits r).map (· + 48) ++ rest))))) =
      some (⟨true, natDigits q, true,
        List.replicate (6 - (natDigits r).length) 0 ++ natDigits r⟩, rest) := by
  have hsign : readSign (45 :: (natChars q ++
      (46 :: (List.replicate (6 - (natDigits r).length) 48 ++
        ((natDigits r).map (· + 48) ++ rest))))) =
      (true, natChars q ++
        (46 :: (List.replicate (6 - (natDigits r).length) 48 ++
          ((natDigits r).map (· + 48) ++ rest)))) := by
    simp [readSign]
  have hdig1 : readDigitVals (natChars q ++ (46 :: (List.replicate (6 - (natDigits r).length) 48 ++
      ((natDigits r).map (· + 48) ++ rest)))) =
      (natDigits q, 46 :: (List.replicate (6 - (natDigits r).length) 48 ++
        ((natDigits r).map (· + 48) ++ rest))) := by
    refine readDigitVals_natChars q _ (fun c r hcr => ?_)
    injection hcr with h1 h2
    subst h1
    omega
  have hfrac : (List.replicate (6 - (natDigits r).length) 48 ++
      (natDigits r).map (· + 48)) ++ rest =
      ((List.replicate (6 - (natDigits r).length) 0 ++ natDigits r).map (· + 48)) ++ rest := by
    simp [List.map_append, List.map_replicate]
  have hdig2 : readDigitVals ((List.replicate (6 - (natDigits r).length) 48 ++
      (natDigits r).map (· + 48)) ++ rest) =
      (List.replicate (6 - (natDigits r).length) 0 ++ natDigits r, rest) := by
    rw [hfrac]
    refine readDigitVals_map ?_ (fun c r hcr => by subst hcr; exact termOk_not_digit h)
    intro d hd
    rw [List.mem_append] at hd
    rcases hd with hd | hd
    · simp at hd
      omega
    · exact natDigits_all_lt r d hd
  rw [List.append_assoc] at hdig2
  simp only [readNumTok, hsign, hdig1]
  simp [dotSplit, hdig2, h, natDigits_ne_nil q]

theorem realVal_frac (q r : Nat) (neg : Bool) (hr : r < 1000000) :
    NumTok.realVal ⟨neg, natDigits q, true,
        List.replicate (6 - (natDigits r).length) 0 ++ natDigits r⟩ =
      if neg then -((q * 1000000 + r : Nat) : Int) else ((q * 1000000 + r : Nat) : Int) := by
  have hlen : (List.replicate (6 - (natDigits r).length) 0 ++ natDigits r).length = 6 :=
    frac_digits_len hr
  simp only [NumTok.realVal]
  rw [List.take_of_length_le (le_of_eq hlen)]
  rw [show pad6 (List.replicate (6 - (natDigits r).length) 0 ++ natDigits r) =
      List.replicate (6 - (natDigits r).length) 0 ++ natDigits r from by
    simp [pad6, hlen]]
  rw [digitsToNat_replicate_zero, digitsToNat_natDigits, digitsToNat_natDigits]

theorem isNumStart_digit {c : Nat} (h48 : 48 ≤ c) (h57 : c ≤ 57) : isNumStart c = true := by
  simp only [isNumStart, Bool.or_eq_true, Bool.and_eq_true, decide_eq_true_eq]
  omega

theorem parseCore_top_digit_ref (fuel : Nat) {c : Nat} (h48 : 48 ≤ c) (h57 : c ≤ 57)
    {r : List Nat} {t : NumTok} {rest rest2 : List Nat} {g : Nat}
    (htok : readNumTok (c :: r) = some (t, rest)) (hdot : t.hasDot = false)
    (hneg : t.neg = false) (href : tryRefTail rest = some (g, rest2)) :
    parseCore (fuel + 1) PMode.top (c :: r) = some (.ref (digitsToNat t.intDs) g, rest2) := by
  simp only [parseCore, skipWsC_stop _ (digit_not_ws h48 h57) (by omega)]
  rw [if_neg (by omega), if_neg (by omega), if_neg (by omega), if_neg (by omega),
    if_pos (isNumStart_digit h48 h57), htok]
  simp [hdot, hneg, href]

theorem parseCore_top_digit_num (fuel : Nat) {c : Nat} (h48 : 48 ≤ c) (h57 : c ≤ 57)
    {r : List Nat} {t : NumTok} {rest : List Nat}
    (htok : readNumTok (c :: r) = some (t, rest)) (hdot : t.hasDot = false)
    (hneg : t.neg = false) (href : tryRefTail rest = none) :
    parseCore (fuel + 1) PMode.top (c :: r) = some (.number t.intVal, rest) := by
  simp only [parseCore, skipWsC_stop _ (digit_not_ws h48 h57) (by omega)]
  rw [if_neg (by omega), if_neg (by omega), if_neg (by omega), if_neg (by omega),
    if_pos (isNumStart_digit h48 h57), htok]
  simp [hdot, hneg, href]

theorem parseCore_top_digit_real (fuel : Nat) {c : Nat} (h48 : 48 ≤ c) (h57 : c ≤ 57)
    {r : List Nat} {t : NumTok} {rest : List Nat}
    (htok : readNumTok (c :: r) = some (t, rest)) (hdot : t.hasDot = true) :
    parseCore (fuel + 1) PMode.top (c :: r) = some (.real t.realVal, rest) := by
  simp only [parseCore, skipWsC_stop _ (digit_not_ws h48 h57) (by omega)]
  rw [if_neg (by omega), if_neg (by omega), if_neg (by omega), if_neg (by omega),
    if_pos (isNumStart_digit h48 h57), htok]
  simp [hdot]

theorem parse_fmt_number (n : Int) (fuel : Nat) {rest : List Nat} (hrest : termOk rest = true)
    (href : tryRefTail rest = none) :
    parseCore (fuel + 1) PMode.top (intChars n ++ rest) = some (.number n, rest) := by
  by_cases hn : n < 0
  · rw [show intChars n = 45 :: natChars n.natAbs from by simp [intChars, hn],
      List.cons_append]
    have htok := readNumTok_natChars_neg n.natAbs rest hrest
    have hskip : skipWsC (45 :: (natChars n.natAbs ++ rest)) =
        45 :: (natChars n.natAbs ++ rest) := skipWsC_stop _ (by decide) (by decide)
    simp only [parseCore, hskip]
    simp only [show ¬((45 : Nat) = 91) from by decide, show ¬((45 : Nat) = 60) from by decide,
      show ¬((45 : Nat) = 40) from by decide, show ¬((45 : Nat) = 47) from by decide,
      show isNumStart 45 = true from by decide, if_false, if_true, htok]
    simp only [NumTok.intVal, digitsToNat_natDigits]
    rw [if_neg (by decide), show -((n.natAbs : Int)) = n from by omega]
    simp
  · rw [show intChars n = natChars n.natAbs from by simp [intChars, hn]]
    obtain ⟨c, tl, hc, h48, h57⟩ := natChars_cons n.natAbs
    rw [hc, List.cons_append]
    have htok : readNumTok (c :: (tl ++ rest)) =
        some (⟨false, natDigits n.natAbs, false, []⟩, rest) := by
      rw [show c :: (tl ++ rest) = natChars n.natAbs ++ rest from by rw [hc]; simp]
      exact readNumTok_nat n.natAbs rest hrest
    rw [parseCore_top_digit_num fuel h48 h57 htok rfl rfl href]
    simp only [NumTok.intVal, digitsToNat_natDigits]
    norm_num
    omega

theorem parse_fmt_real (m : Int) (fuel : Nat) {rest : List Nat} (hrest : termOk rest = true) :
    parseCore (fuel + 1) PMode.top (realChars m ++ rest) = some (.real m, rest) := by
  have hrlt : m.natAbs % 1000000 < 1000000 := Nat.mod_lt _ (by omega)
  by_cases hm : m < 0
  · rw [realChars_neg hm]
    simp only [List.cons_append, List.append_assoc]
    have htok := readNumTok_real_core_neg (m.natAbs / 1000000) (m.natAbs % 1000000) rest hrest
    have hskip : skipWsC (45 :: (natChars (m.natAbs / 1000000) ++
        (46 :: (List.replicate (6 - (natDigits (m.natAbs % 1000000)).length) 48 ++
          ((natDigits (m.natAbs % 1000000)).map (· + 48) ++ rest))))) =
        45 :: (natChars (m.natAbs / 1000000) ++
        (46 :: (List.replicate (6 - (natDigits (m.natAbs % 1000000)).length) 48 ++
          ((natDigits (m.natAbs % 1000000)).map (· + 48) ++ rest)))) :=
      skipWsC_stop _ (by decide) (by decide)
    simp only [parseCore, hskip]
    simp only [show ¬((45 : Nat) = 91) from by decide, show ¬((45 : Nat) = 60) from by decide,
      show ¬((45 : Nat) = 40) from by decide, show ¬((45 : Nat) = 47) from by decide,
      show isNumStart 45 = true from by decide, if_false, if_true, htok]
    simp only [realVal_frac _ _ _ hrlt]
    have h1 : m.natAbs / 1000000 * 1000000 + m.natAbs % 1000000 = m.natAbs := by omega
    rw [h1]
    have h2 : -|m| = m := by rw [abs_of_neg hm]; ring
    simp [h2]
  · rw [realChars_nonneg hm]
    simp only [List.cons_append, List.append_assoc]
    obtain ⟨c, tl, hc, h48, h57⟩ := natChars_cons (m.natAbs / 1000000)
    have htok : readNumTok (c :: (tl ++ (46 :: (List.replicate
        (6 - (natDigits (m.natAbs % 1000000)).length) 48 ++
        ((natDigits (m.natAbs % 1000000)).map (· + 48) ++ rest))))) =
        some (⟨false, natDigits (m.natAbs / 1000000), true,
          List.replicate (6 - (natDigits (m.natAbs % 1000000)).length) 0 ++
            natDigits (m.natAbs % 1000000)⟩, rest) := by
      rw [show c :: (tl ++ (46 :: (List.replicate
          (6 - (natDigits (m.natAbs % 1000000)).length) 48 ++
          ((natDigits (m.natAbs % 1000000)).map (· + 48) ++ rest)))) =
          natChars (m.natAbs / 1000000) ++ (46 :: (List.replicate
          (6 - (natDigits (m.natAbs % 1000000)).length) 48 ++
          ((natDigits (m.natAbs % 1000000)).map (· + 48) ++ rest))) from by rw [hc]; simp]
      exact readNumTok_real_core _ _ rest hrest
    rw [hc, List.cons_append, parseCore_top_digit_real fuel h48 h57 htok rfl]
    simp only [realVal_frac _ _ _ hrlt]
    have h1 : m.natAbs / 1000000 * 1000000 + m.natAbs % 1000000 = m.natAbs := by omega
    rw [h1]
    have h2 : |m| = m := abs_of_nonneg (by omega)
    simp [h2]

theorem parse_fmt_ref (n g : Nat) (fuel : Nat) {rest : List Nat} (hrest : termOk rest = true) :
    parseCore (fuel + 1) PMode.top (fmtV (.ref n g) ++ rest) = some (.ref n g, rest) := by
  rw [show fmtV (.ref n g) ++ rest =
      natChars n ++ (32 :: (natChars g ++ (32 :: 82 :: rest))) from by simp [fmtV]]
  obtain ⟨c, tl, hc, h48, h57⟩ := natChars_cons n
  rw [hc, List.cons_append]
  have htok : readNumTok (c :: (tl ++ (32 :: (natChars g ++ (32 :: 82 :: rest))))) =
      some (⟨false, natDigits n, false, []⟩, 32 :: (natChars g ++ (32 :: 82 :: rest))) := by
    rw [show c :: (tl ++ (32 :: (natChars g ++ (32 :: 82 :: rest)))) =
        natChars n ++ (32 :: (natChars g ++ (32 :: 82 :: rest))) from by rw [hc]; simp]
    exact readNumTok_nat n _ (by rfl)
  rw [parseCore_top_digit_ref fuel h48 h57 htok rfl rfl (tryRefTail_sep g hrest)]
  rw [digitsToNat_natDigits]

theorem parse_fmt_null (fuel : Nat) {rest : List Nat} (hrest : termOk rest = true) :
    parseCore (fuel + 1) PMode.top (fmtV .null ++ rest) = some (.null, rest) := by
  rw [show fmtV PdfVariant.null ++ rest = 110 :: (117 :: 108 :: 108 :: rest) from rfl]
  have hkw := @readKw_run [110, 117, 108, 108] (by decide) [] _ hrest
  simp only [List.cons_append, List.nil_append] at hkw
  have hskip : skipWsC (110 :: (117 :: 108 :: 108 :: rest)) =
      110 :: (117 :: 108 :: 108 :: rest) := skipWsC_stop _ (by decide) (by decide)
  simp [parseCore, hskip, isNumStart, hkw]

theorem parse_fmt_true (fuel : Nat) {rest : List Nat} (hrest : termOk rest = true) :
    parseCore (fuel + 1) PMode.top (fmtV (.bool true) ++ rest) = some (.bool true, rest) := by
  rw [show fmtV (PdfVariant.bool true) ++ rest = 116 :: (114 :: 117 :: 101 :: rest) from rfl]
  have hkw := @readKw_run [116, 114, 117, 101] (by decide) [] _ hrest
  simp only [List.cons_append, List.nil_append] at hkw
  have hskip : skipWsC (116 :: (114 :: 117 :: 101 :: rest)) =
      116 :: (114 :: 117 :: 101 :: rest) := skipWsC_stop _ (by decide) (by decide)
  simp [parseCore, hskip, isNumStart, hkw]

theorem parse_fmt_false (fuel : Nat) {rest : List Nat} (hrest : termOk rest = true) :
    parseCore (fuel + 1) PMode.top (fmtV (.bool false) ++ rest) = some (.bool false, rest) := by
  rw [show fmtV (PdfVariant.bool false) ++ rest =
    102 :: (97 :: 108 :: 115 :: 101 :: rest) from rfl]
  have hkw := @readKw_run [102, 97, 108, 115, 101] (by decide) [] _ hrest
  simp only [List.cons_append, List.nil_append] at hkw
  have hskip : skipWsC (102 :: (97 :: 108 :: 115 :: 101 :: rest)) =
      102 :: (97 :: 108 :: 115 :: 101 :: rest) := skipWsC_stop _ (by decide) (by decide)
  simp [parseCore, hskip, isNumStart, hkw]

theorem parse_fmt_name (bs : List Nat) (hb : ∀ b ∈ bs, b < 256) (fuel : Nat)
    {rest : List Nat} (hrest : termOk rest = true) :
    parseCore (fuel + 1) PMode.top (fmtV (.name bs) ++ rest) = some (.name bs, rest) := by
  rw [show fmtV (PdfVariant.name bs) ++ rest = 47 :: (escName bs ++ rest) from by
    simp [fmtV]]
  have hname := readName_esc hb [] ((escName bs ++ rest).length + 1)
    (by simp; omega) hrest
  simp only [List.length_append, List.nil_append] at hname
  have hskip : skipWsC (47 :: (escName bs ++ rest)) = 47 :: (escName bs ++ rest) :=
    skipWsC_stop _ (by decide) (by decide)
  simp [parseCore, hskip, isNumStart, hname]

theorem parse_fmt_litstring (bs : List Nat) (fuel : Nat) (rest : List Nat) :
    parseCore (fuel + 1) PMode.top (fmtV (.string false bs) ++ rest) =
      some (.string false bs, rest) := by
  rw [show fmtV (PdfVariant.string false bs) ++ rest =
      40 :: (escLit bs ++ (41 :: rest)) from by simp [fmtV]]
  have hlit := readLit_esc bs [] rest ((escLit bs ++ (41 :: rest)).length + 1)
    (by simp; omega)
  simp only [List.length_append, List.length_cons, List.nil_append] at hlit
  have hskip : skipWsC (40 :: (escLit bs ++ (41 :: rest))) =
      40 :: (escLit bs ++ (41 :: rest)) := skipWsC_stop _ (by decide) (by decide)
  simp [parseCore, hskip, isNumStart, hlit]

theorem parse_fmt_hexstring (bs : List Nat) (hb : ∀ b ∈ bs, b < 256) (fuel : Nat)
    (rest : List Nat) :
    parseCore (fuel + 1) PMode.top (fmtV (.string true bs) ++ rest) =
      some (.string true bs, rest) := by
  rw [show fmtV (PdfVariant.string true bs) ++ rest =
      60 :: (hexBytes bs ++ (62 :: rest)) from by simp [fmtV]]
  have hhex := readHex_pairs hb [] rest
  cases bs with
  | nil =>
    have hskip : skipWsC (60 :: 62 :: rest) = 60 :: 62 :: rest :=
      skipWsC_stop _ (by decide) (by decide)
    simp only [hexBytes, List.nil_append]
    simp [parseCore, hskip, isNumStart, readHex]
  | cons b bs2 =>
    have hb0 : b < 256 := hb b (List.mem_cons_self b bs2)
    have h16a : b / 16 % 16 < 16 := Nat.mod_lt _ (by omega)
    simp only [hexBytes, List.cons_append]
    have hskip : skipWsC (60 :: (hexChar (b / 16 % 16) ::
        (hexChar (b % 16) :: (hexBytes bs2 ++ (62 :: rest))))) =
        60 :: (hexChar (b / 16 % 16) ::
        (hexChar (b % 16) :: (hexBytes bs2 ++ (62 :: rest)))) :=
      skipWsC_stop _ (by decide) (by decide)
    simp only [parseCore, hskip]
    rw [if_neg (by decide), if_pos (by trivial)]
    have hne : hexChar (b / 16 % 16) ≠ 60 := by
      have := hexVal_hexChar _ h16a
      intro he
      rw [he] at this
      simp [hexVal] at this
    split
    · rename_i r2 heq
      injection heq with h1 _
      exact absurd h1 hne
    · rename_i hmatch
      rw [show hexChar (b / 16 % 16) :: hexChar (b % 16) :: (hexBytes bs2 ++ 62 :: rest) =
          hexBytes (b :: bs2) ++ 62 :: rest from by simp [hexBytes], hhex]
      simp

/-! ## Helper lemmas: the main round-trip induction -/

theorem fuelV_pos (V : PdfVariant) : 1 ≤ fuelV V := by
  cases V <;> simp [fuelV]

theorem fuelItems_pos (items : List PdfVariant) : 1 ≤ fuelItems items := by
  cases items with
  | nil => simp [fuelItems]
  | cons v vs =>
    simp [fuelItems]
    omega

theorem fuelEntries_pos (entries : List (List Nat × PdfVariant)) : 1 ≤ fuelEntries entries := by
  cases entries with
  | nil => simp [fuelEntries]
  | cons e es =>
    obtain ⟨k, v⟩ := e
    simp [fuelEntries]
    omega

theorem parseCore_top_ws {c : Nat} (h : isWs c = true) (fuel : Nat) (l : List Nat) :
    parseCore (fuel + 1) PMode.top (c :: l) = parseCore (fuel + 1) PMode.top l := by
  simp only [parseCore, skipWsC_ws _ h]

theorem parseCore_entries_ws {c : Nat} (h : isWs c = true) (fuel : Nat)
    (acc : List (List Nat × PdfVariant)) (l : List Nat) :
    parseCore (fuel + 1) (PMode.entries acc) (c :: l) =
      parseCore (fuel + 1) (PMode.entries acc) l := by
  simp only [parseCore, skipWsC_ws _ h]

theorem wfV_string {hex : Bool} {bs : List Nat} (h : wfV (.string hex bs) = true) :
    ∀ b ∈ bs, b < 256 := by
  simp only [wfV, List.all_eq_true, decide_eq_true_eq] at h
  exact h

theorem wfV_name {bs : List Nat} (h : wfV (.name bs) = true) : ∀ b ∈ bs, b < 256 := by
  simp only [wfV, List.all_eq_true, decide_eq_true_eq] at h
  exact h

theorem wfItems_elim {v : PdfVariant} {vs : List PdfVariant}
    (h : wfItems (v :: vs) = true) : wfV v = true ∧ wfItems vs = true := by
  simpa [wfItems, Bool.and_eq_true] using h

theorem wfEntries_elim : ∀ {k : List Nat} {v : PdfVariant}
    {es : List (List Nat × PdfVariant)}, wfEntries ((k, v) :: es) = true →
      (∀ b ∈ k, b < 256) ∧ wfV v = true ∧ wfEntries es = true ∧
        ∀ q ∈ es, keyLt k q.1 = true := by
  intro k v es
  induction es generalizing k v with
  | nil =>
    intro h
    simp only [wfEntries, Bool.and_eq_true, List.all_eq_true, decide_eq_true_eq] at h
    exact ⟨h.1, h.2, rfl, by simp⟩
  | cons e2 es2 ih =>
    obtain ⟨k2, v2⟩ := e2
    intro h
    simp only [wfEntries, Bool.and_eq_true, List.all_eq_true, decide_eq_true_eq] at h
    obtain ⟨⟨⟨hk, hv⟩, hlt⟩, htail⟩ := h
    have htail' : wfEntries ((k2, v2) :: es2) = true := htail
    obtain ⟨hk2, hv2, hes2, hlt2⟩ := ih htail'
    refine ⟨hk, hv, htail', ?_⟩
    intro q hq
    rcases List.mem_cons.mp hq with hq2 | hq2
    · rw [hq2]
      exact hlt
    · exact keyLt_trans hlt (hlt2 q hq2)

theorem Cont_sep32 (Y rest : List Nat) : Cont ((32 :: Y) ++ rest) :=
  Or.inr (Or.inl ⟨Y ++ rest, by simp⟩)

theorem Cont_fmtItems (vs : List PdfVariant) (rest : List Nat) :
    Cont (fmtItems vs ++ rest) := by
  obtain ⟨Y, hY⟩ := fmtItems_cons vs
  rw [hY]
  exact Cont_sep32 Y rest

mutual

theorem parse_fmtV : ∀ (V : PdfVariant), wfV V = true →
    ∀ (fuel : Nat), fuelV V ≤ fuel → ∀ (rest : List Nat), Cont rest →
      (numberLike V = true → tryRefTail rest = none) →
      parseCore fuel PMode.top (fmtV V ++ rest) = some (V, rest)
  | .null, _, fuel, hfuel, rest, hcont, _ => by
    cases fuel with
    | zero => simp [fuelV] at hfuel
    | succ fuel => exact parse_fmt_null fuel (Cont_termOk hcont)
  | .bool true, _, fuel, hfuel, rest, hcont, _ => by
    cases fuel with
    | zero => simp [fuelV] at hfuel
    | succ fuel => exact parse_fmt_true fuel (Cont_termOk hcont)
  | .bool false, _, fuel, hfuel, rest, hcont, _ => by
    cases fuel with
    | zero => simp [fuelV] at hfuel
    | succ fuel => exact parse_fmt_false fuel (Cont_termOk hcont)
  | .number n, _, fuel, hfuel, rest, hcont, href => by
    cases fuel with
    | zero => simp [fuelV] at hfuel
    | succ fuel =>
      exact parse_fmt_number n fuel (Cont_termOk hcont) (href rfl)
  | .real m, _, fuel, hfuel, rest, hcont, _ => by
    cases fuel with
    | zero => simp [fuelV] at hfuel
    | succ fuel => exact parse_fmt_real m fuel (Cont_termOk hcont)
  | .string true bs, hwf, fuel, hfuel, rest, hcont, _ => by
    cases fuel with
    | zero => simp [fuelV] at hfuel
    | succ fuel => exact parse_fmt_hexstring bs (wfV_string hwf) fuel rest
  | .string false bs, _, fuel, hfuel, rest, hcont, _ => by
    cases fuel with
    | zero => simp [fuelV] at hfuel
    | succ fuel => exact parse_fmt_litstring bs fuel rest
  | .name bs, hwf, fuel, hfuel, rest, hcont, _ => by
    cases fuel with
    | zero => simp [fuelV] at hfuel
    | succ fuel => exact parse_fmt_name bs (wfV_name hwf) fuel (Cont_termOk hcont)
  | .ref n g, _, fuel, hfuel, rest, hcont, _ => by
    cases fuel with
    | zero => simp [fuelV] at hfuel
    | succ fuel => exact parse_fmt_ref n g fuel (Cont_termOk hcont)
  | .array items, hwf, fuel, hfuel, rest, hcont, _ => by
    cases fuel with
    | zero => simp [fuelV] at hfuel
    | succ fuel =>
      rw [show fmtV (.array items) ++ rest = 91 :: (fmtItems items ++ rest) from by
        simp [fmtV]]
      have hskip : skipWsC (91 :: (fmtItems items ++ rest)) =
          91 :: (fmtItems items ++ rest) := skipWsC_stop _ (by decide) (by decide)
      simp only [parseCore, hskip]
      rw [if_pos (by trivial)]
      have hres := parse_fmtItems items (by simpa [wfV] using hwf) [] fuel
        (by simp [fuelV] at hfuel; omega) rest hcont
      simpa using hres
  | .dict entries, hwf, fuel, hfuel, rest, hcont, _ => by
    cases fuel with
    | zero => simp [fuelV] at hfuel
    | succ fuel =>
      rw [show fmtV (.dict entries) ++ rest =
          60 :: (60 :: (10 :: (fmtEntries entries ++ rest))) from by simp [fmtV]]
      have hskip : skipWsC (60 :: (60 :: (10 :: (fmtEntries entries ++ rest)))) =
          60 :: (60 :: (10 :: (fmtEntries entries ++ rest))) :=
        skipWsC_stop _ (by decide) (by decide)
      simp only [parseCore, hskip]
      rw [if_neg (by decide), if_pos (by trivial)]
      have hfe : fuelEntries entries ≤ fuel := by simp [fuelV] at hfuel; omega
      cases fuel with
      | zero => exact absurd hfe (by have := fuelEntries_pos entries; omega)
      | succ fuel2 =>
        rw [parseCore_entries_ws (by decide) fuel2 [] (fmtEntries entries ++ rest)]
        have hres := parse_fmtEntries entries (by simpa [wfV] using hwf) [] (fuel2 + 1)
          hfe rest hcont (by simp)
        simpa using hres

theorem parse_fmtItems : ∀ (items : List PdfVariant), wfItems items = true →
    ∀ (acc : List PdfVariant) (fuel : Nat), fuelItems items ≤ fuel →
      ∀ (rest : List Nat), Cont rest →
        parseCore fuel (PMode.items acc) (fmtItems items ++ rest) =
          some (.array (acc.reverse ++ items), rest)
  | [], _, acc, fuel, hfuel, rest, hcont => by
    cases fuel with
    | zero => simp [fuelItems] at hfuel
    | succ fuel =>
      rw [show fmtItems [] ++ rest = 32 :: (93 :: rest) from rfl]
      have hskip : skipWsC (32 :: (93 :: rest)) = 93 :: rest := by
        rw [skipWsC_ws _ (by decide), skipWsC_stop _ (by decide) (by decide)]
      simp only [parseCore, hskip]
      simp
  | v :: vs, hwf, acc, fuel, hfuel, rest, hcont => by
    cases fuel with
    | zero => simp [fuelItems] at hfuel
    | succ fuel =>
      obtain ⟨hwv, hwvs⟩ := wfItems_elim hwf
      obtain ⟨c, l, hc, hws, h37, h82, h93⟩ := fmtV_cons v
      rw [show fmtItems (v :: vs) ++ rest = 32 :: (fmtV v ++ (fmtItems vs ++ rest)) from by
        simp [fmtItems]]
      have hskip : skipWsC (32 :: (fmtV v ++ (fmtItems vs ++ rest))) =
          c :: (l ++ (fmtItems vs ++ rest)) := by
        rw [skipWsC_ws _ (by decide), hc, List.cons_append, skipWsC_stop _ hws h37]
      simp only [parseCore, hskip]
      rw [if_neg h93]
      rw [show c :: (l ++ (fmtItems vs ++ rest)) = fmtV v ++ (fmtItems vs ++ rest) from by
        rw [hc]; simp]
      have hfv : fuelV v ≤ fuel := by simp [fuelItems] at hfuel; omega
      have hfvs : fuelItems vs ≤ fuel := by simp [fuelItems] at hfuel; omega
      rw [parse_fmtV v hwv fuel hfv _ (Cont_fmtItems vs rest) (fun _ => refFail_items vs rest)]
      show parseCore fuel (PMode.items (v :: acc)) (fmtItems vs ++ rest) =
        some (.array (acc.reverse ++ v :: vs), rest)
      rw [parse_fmtItems vs hwvs (v :: acc) fuel hfvs rest hcont]
      simp

theorem parse_fmtEntries : ∀ (entries : List (List Nat × PdfVariant)),
    wfEntries entries = true →
    ∀ (acc : List (List Nat × PdfVariant)) (fuel : Nat), fuelEntries entries ≤ fuel →
      ∀ (rest : List Nat), Cont rest →
        (∀ p ∈ acc, ∀ q ∈ entries, keyLt p.1 q.1 = true) →
        parseCore fuel (PMode.entries acc) (fmtEntries entries ++ rest) =
          some (.dict (acc ++ entries), rest)
  | [], _, acc, fuel, hfuel, rest, hcont, _ => by
    cases fuel with
    | zero => simp [fuelEntries] at hfuel
    | succ fuel =>
      rw [show fmtEntries [] ++ rest = 62 :: (62 :: rest) from rfl]
      have hskip : skipWsC (62 :: (62 :: rest)) = 62 :: (62 :: rest) :=
        skipWsC_stop _ (by decide) (by decide)
      simp only [parseCore, hskip]
      simp
  | (k, v) :: es, hwf, acc, fuel, hfuel, rest, hcont, hacc => by
    cases fuel with
    | zero => simp [fuelEntries] at hfuel
    | succ fuel =>
      obtain ⟨hk256, hwv, hwes, hklt⟩ := wfEntries_elim hwf
      rw [show fmtEntries ((k, v) :: es) ++ rest =
          47 :: (escName k ++ (32 :: (fmtV v ++ (10 :: (fmtEntries es ++ rest))))) from by
        simp [fmtEntries]]
      have hskip : skipWsC (47 :: (escName k ++ (32 :: (fmtV v ++
          (10 :: (fmtEntries es ++ rest)))))) =
          47 :: (escName k ++ (32 :: (fmtV v ++ (10 :: (fmtEntries es ++ rest))))) :=
        skipWsC_stop _ (by decide) (by decide)
      simp only [parseCore, hskip]
      have hname := readName_esc hk256 []
        ((escName k ++ (32 :: (fmtV v ++ (10 :: (fmtEntries es ++ rest))))).length + 1)
        (by simp; omega) (show termOk (32 :: (fmtV v ++ (10 :: (fmtEntries es ++ rest)))) =
          true from by rfl)
      simp only [List.reverse_nil, List.nil_append] at hname
      rw [hname]
      have hfv : fuelV v ≤ fuel := by
        obtain ⟨k2, v2⟩ := (⟨k, v⟩ : List Nat × PdfVariant)
        simp [fuelEntries] at hfuel
        omega
      have hfes : fuelEntries es ≤ fuel := by
        simp [fuelEntries] at hfuel
        omega
      cases fuel with
      | zero => exact absurd hfv (by have := fuelV_pos v; omega)
      | succ fuel2 =>
        rw [parseCore_top_ws (by decide) fuel2 (fmtV v ++ (10 :: (fmtEntries es ++ rest)))]
        rw [parse_fmtV v hwv (fuel2 + 1) hfv _ (Or.inr (Or.inr ⟨fmtEntries es ++ rest, rfl⟩))
          (fun _ => refFail_entries es rest)]
        show parseCore (fuel2 + 1) (PMode.entries (dictInsert acc k v))
            (10 :: (fmtEntries es ++ rest)) =
          some (.dict (acc ++ (k, v) :: es), rest)
        rw [dictInsert_append acc k v (fun p hp => hacc p hp (k, v) (List.mem_cons_self _ _))]
        rw [parseCore_entries_ws (by decide) fuel2 (acc ++ [(k, v)])
          (fmtEntries es ++ rest)]
        rw [parse_fmtEntries es hwes (acc ++ [(k, v)]) (fuel2 + 1)
          hfes rest hcont ?_]
        · simp
        · intro p hp q hq
          rcases List.mem_append.mp hp with hp2 | hp2
          · exact hacc p hp2 q (List.mem_cons_of_mem _ hq)
          · simp at hp2
            rw [hp2]
            exact hklt q hq

end

mutual

theorem fuelV_le_len : ∀ (V : PdfVariant), fuelV V ≤ (fmtV V).length
  | .null => by simp [fuelV, fmtV]
  | .bool true => by simp [fuelV, fmtV]
  | .bool false => by simp [fuelV, fmtV]
  | .number n => by
    obtain ⟨c, l, hc, _, _, _, _⟩ := fmtV_cons (.number n)
    simp [fuelV, hc]
  | .real m => by
    obtain ⟨c, l, hc, _, _, _, _⟩ := fmtV_cons (.real m)
    simp [fuelV, hc]
  | .string true bs => by simp [fuelV, fmtV]
  | .string false bs => by simp [fuelV, fmtV]
  | .name bs => by simp [fuelV, fmtV]
  | .ref n g => by
    obtain ⟨c, l, hc, _, _, _, _⟩ := fmtV_cons (.ref n g)
    simp [fuelV, hc]
  | .array items => by
    have h := fuelItems_le_len items
    simp only [fuelV, fmtV, List.length_cons]
    omega
  | .dict entries => by
    have h := fuelEntries_le_len entries
    simp only [fuelV, fmtV, List.length_cons]
    omega

theorem fuelItems_le_len : ∀ (items : List PdfVariant),
    fuelItems items ≤ (fmtItems items).length
  | [] => by simp [fuelItems, fmtItems]
  | v :: vs => by
    have h1 := fuelV_le_len v
    have h2 := fuelItems_le_len vs
    simp only [fuelItems, fmtItems, List.length_cons, List.length_append]
    omega

theorem fuelEntries_le_len : ∀ (entries : List (List Nat × PdfVariant)),
    fuelEntries entries ≤ (fmtEntries entries).length
  | [] => by simp [fuelEntries, fmtEntries]
  | (k, v) :: es => by
    have h1 := fuelV_le_len v
    have h2 := fuelEntries_le_len es
    simp only [fuelEntries, fmtEntries, List.length_cons, List.length_append]
    omega

end

/-- The canonical format of every well-formed variant parses back to that
exact variant, consuming the whole input. -/
theorem parseTop_fmtV (V : PdfVariant) (hwf : wfV V = true) :
    parseTop (fmtV V) = some V := by
  have h := parse_fmtV V hwf ((fmtV V).length + 1)
    (by have := fuelV_le_len V; omega) [] (Or.inl rfl)
    (fun _ => tryRefTail_none_nil rfl)
  rw [List.append_nil] at h
  show (parseCore ((fmtV V).length + 1) PMode.top (fmtV V)).map Prod.fst = some V
  rw [h]
  rfl

/-! ## Helper lemmas: the dirty flag -/

theorem setDirty_isIndirect (o : PdfObject) : o.setDirty.isIndirect = o.isIndirect := by
  unfold PdfObject.setDirty
  split <;> rfl

theorem setDirty_dirty (o : PdfObject) (hi : o.isIndirect = true) :
    o.setDirty.dirty = true := by
  unfold PdfObject.setDirty
  rw [if_pos hi]

theorem setDirty_mono (o : PdfObject) (hd : o.dirty = true) : o.setDirty.dirty = true := by
  unfold PdfObject.setDirty
  split
  · rfl
  · exact hd

theorem applyOp_getter (o : PdfObject) (op : ObjOp) (h : op.isMutator = false) :
    applyOp o op = o := by
  cases op <;> first | rfl | simp [ObjOp.isMutator] at h

theorem applyOps_getters (o : PdfObject) (ops : List ObjOp)
    (h : ∀ g ∈ ops, g.isMutator = false) : applyOps o ops = o := by
  induction ops generalizing o with
  | nil => rfl
  | cons g gs ih =>
    show applyOps (applyOp o g) gs = o
    rw [applyOp_getter o g (h g (List.mem_cons_self _ _))]
    exact ih o (fun x hx => h x (List.mem_cons_of_mem _ hx))

theorem applyOp_isIndirect (o : PdfObject) (op : ObjOp) :
    (applyOp o op).isIndirect = o.isIndirect := by
  cases op <;>
    simp only [applyOp] <;>
    first
      | rfl
      | (rw [setDirty_isIndirect]; try first | rfl | (split <;> rfl))

theorem applyOps_isIndirect (o : PdfObject) (ops : List ObjOp) :
    (applyOps o ops).isIndirect = o.isIndirect := by
  induction ops generalizing o with
  | nil => rfl
  | cons op ops ih =>
    show (applyOps (applyOp o op) ops).isIndirect = o.isIndirect
    rw [ih, applyOp_isIndirect]

theorem applyOp_mutator_dirty (o : PdfObject) (op : ObjOp) (hi : o.isIndirect = true)
    (hm : op.isMutator = true) : (applyOp o op).dirty = true := by
  cases op with
  | getter => exact absurd hm (by simp [ObjOp.isMutator])
  | arrayAdd v =>
    cases hv : o.variant <;> simp only [applyOp, hv] <;> exact setDirty_dirty _ hi
  | dictAddKey k v =>
    cases hv : o.variant <;> simp only [applyOp, hv] <;> exact setDirty_dirty _ hi
  | setBool b => exact setDirty_dirty _ hi
  | setNumber n => exact setDirty_dirty _ hi
  | setReal m => exact setDirty_dirty _ hi
  | setString s => exact setDirty_dirty _ hi
  | setName s => exact setDirty_dirty _ hi
  | setReference num gen => exact setDirty_dirty _ hi
  | streamSet d => exact setDirty_dirty _ hi
  | assign v => exact setDirty_dirty _ hi

theorem applyOp_dirty_mono (o : PdfObject) (op : ObjOp) (hd : o.dirty = true) :
    (applyOp o op).dirty = true := by
  cases op with
  | getter => exact hd
  | arrayAdd v =>
    cases hv : o.variant <;> simp only [applyOp, hv] <;> exact setDirty_mono _ hd
  | dictAddKey k v =>
    cases hv : o.variant <;> simp only [applyOp, hv] <;> exact setDirty_mono _ hd
  | setBool b => exact setDirty_mono _ hd
  | setNumber n => exact setDirty_mono _ hd
  | setReal m => exact setDirty_mono _ hd
  | setString s => exact setDirty_mono _ hd
  | setName s => exact setDirty_mono _ hd
  | setReference num gen => exact setDirty_mono _ hd
  | streamSet d => exact setDirty_mono _ hd
  | assign v => exact setDirty_mono _ hd

theorem applyOps_dirty_mono (o : PdfObject) (ops : List ObjOp) (hd : o.dirty = true) :
    (applyOps o ops).dirty = true := by
  induction ops generalizing o with
  | nil => exact hd
  | cons op ops ih =>
    show (applyOps (applyOp o op) ops).dirty = true
    exact ih _ (applyOp_dirty_mono o op hd)

/-! ## The claims -/

/-- C1 (corrected): `PdfDictionary` stores entries in a
`std::map<PdfName, PdfObject>` (PdfDictionary.h line 218), so iterating and
formatting after any sequence of `AddKey` insertions visits the keys in
ascending name order — NOT in insertion order as the spec states.  The
amended property: starting from any map whose key sequence is strictly
ascending, after any sequence of `AddKey` insertions the iterated key
sequence is again strictly ascending in name order, independent of the
order of the insertions. -/
theorem spec_c1_map_key_order (m : List (List Nat × PdfVariant))
    (ops : List (List Nat × PdfVariant))
    (h : List.Pairwise (fun a b => keyLt a b = true) (dictKeys m)) :
    List.Pairwise (fun a b => keyLt a b = true) (dictKeys (addKeys m ops)) := by
  induction ops generalizing m with
  | nil => exact h
  | cons op ops ih =>
    show List.Pairwise _ (dictKeys (addKeys (dictInsert m op.1 op.2) ops))
    exact ih _ (dictInsert_sorted m op.1 op.2 h)

/-- C1 witness: inserting the keys B then A into the empty map leaves a
strictly ascending key sequence. -/
theorem spec_c1_map_key_order_witness :
    List.Pairwise (fun a b => keyLt a b = true)
      (dictKeys (addKeys [] [(bytes "B", PdfVariant.null), (bytes "A", PdfVariant.null)])) :=
  spec_c1_map_key_order [] [(bytes "B", PdfVariant.null), (bytes "A", PdfVariant.null)]
    List.Pairwise.nil

/-- C1 counterexample: inserting key B then key A iterates A before B —
the sorted order, which differs from the insertion order [B, A].  This
refutes the claimed insertion-order preservation. -/
theorem spec_c1_counterexample :
    dictKeys (addKeys [] [(bytes "B", PdfVariant.null), (bytes "A", PdfVariant.null)]) =
      [bytes "A", bytes "B"] ∧
    [bytes "A", bytes "B"] ≠ [bytes "B", bytes "A"] := by
  exact ⟨rfl, by decide⟩

/-- C2 (corrected): the claim holds only for document-owned (indirect)
objects: `IsDirty()` is false on construction (`CreateObject`), stays false
under getters, and any `Set*`/`Add*`/stream-write mutator makes it true,
where it remains under any further operations (until the store's explicit
reset).  For a standalone object the repository's own `testIsDirtyFalse`
requires the opposite: mutators leave `IsDirty()` false, so the claim as
stated (quantified over every object) is refuted. -/
theorem spec_c2_dirty_flag (v : PdfVariant) (getters : List ObjOp) (op : ObjOp)
    (more : List ObjOp) (hget : ∀ g ∈ getters, g.isMutator = false)
    (hmut : op.isMutator = true) :
    (createObject v).dirty = false ∧
    (applyOps (createObject v) getters).dirty = false ∧
    (applyOps (applyOp (applyOps (createObject v) getters) op) more).dirty = true := by
  refine ⟨rfl, ?_, ?_⟩
  · rw [applyOps_getters _ _ hget]
    rfl
  · apply applyOps_dirty_mono
    apply applyOp_mutator_dirty _ _ _ hmut
    rw [applyOps_isIndirect]
    rfl

/-- C2 witness: a document-owned Bool object is clean after construction
and a getter, and dirty after `SetNumber` followed by a getter. -/
theorem spec_c2_dirty_flag_witness :
    (createObject (.bool true)).dirty = false ∧
    (applyOps (createObject (.bool true)) [ObjOp.getter]).dirty = false ∧
    (applyOps (applyOp (applyOps (createObject (.bool true)) [ObjOp.getter])
      (ObjOp.setNumber 5)) [ObjOp.getter]).dirty = true :=
  spec_c2_dirty_flag (.bool true) [ObjOp.getter] (ObjOp.setNumber 5) [ObjOp.getter]
    (by decide) rfl

/-- C2 counterexample: `SetBool` is a mutator, yet applied to a standalone
(non-document-owned) object it leaves the dirty flag false — exactly what
`testIsDirtyFalse` requires and the opposite of the claim's universal
statement. -/
theorem spec_c2_counterexample :
    (ObjOp.setBool false).isMutator = true ∧
    (applyOp (PdfObject.fromVariant (.bool true)) (.setBool false)).dirty = false :=
  ⟨rfl, rfl⟩

/-- C3: for every well-formed variant V, formatting V, re-parsing the
formatted text and formatting the result yields exactly the same text:
the canonical form is a fixed point of parse-then-format. -/
theorem spec_c3_roundtrip (V : PdfVariant) (hwf : wfV V = true) :
    (parseTop (fmtV V)).map fmtV = some (fmtV V) := by
  rw [parseTop_fmtV V hwf]
  rfl

/-- C3 witness: the round trip at a concrete nested array/dictionary
variant covering every constructor. -/
theorem spec_c3_roundtrip_witness :
    (parseTop (fmtV sampleVariant)).map fmtV = some (fmtV sampleVariant) :=
  spec_c3_roundtrip sampleVariant (by decide)

/-- C4: the literal-string parser decodes a backslash octal escape from at
most 3 octal digits, stopping at the first non-octal byte: `(Test: \064)`
decodes to `Test: 4`, `(Test: \0645)` to `Test: 45` (three digits consumed,
then literal 5), and `(Test: \478)` to `Test:` then byte 0x27 and `8`
(octal 47 = 39, and 8 is not an octal digit so it stays literal). -/
theorem spec_c4_octal_escapes :
    parseTop (bytes "(Test: \\064)") = some (.string false (bytes "Test: 4")) ∧
    parseTop (bytes "(Test: \\0645)") = some (.string false (bytes "Test: 45")) ∧
    parseTop (bytes "(Test: \\478)") =
      some (.string false (bytes "Test: " ++ [39, 56])) :=
  ⟨rfl, rfl, rfl⟩

/-- C5: the input `4.` parses as the Real formatted `4.000000`, not as the
start of an indirect reference, while `2 0 R` parses as Reference(2,0):
the leading integer commits to a reference exactly when a second integer
and the keyword R follow. -/
theorem spec_c5_reference_disambiguation :
    parseTop (bytes "4.") = some (.real 4000000) ∧
    fmtV (.real 4000000) = bytes "4.000000" ∧
    parseTop (bytes "2 0 R") = some (.ref 2 0) ∧
    parseTop (bytes "2") = some (.number 2) :=
  ⟨rfl, rfl, rfl, rfl⟩

/-- C6: hex strings consume hex digits until the closing `>`, skip
non-hex bytes, and complete an odd digit count with an implicit trailing
0 nibble: `<FFEB0400A0C>` parses to the same value as `<FFEB0400A0C0>`. -/
theorem spec_c6_hex_padding :
    parseTop (bytes "<FFEB0400A0C>") = some (.string true [255, 235, 4, 0, 160, 192]) ∧
    parseTop (bytes "<FFEB0400A0C>") = parseTop (bytes "<FFEB0400A0C0>") ∧
    parseTop (bytes "<FF EB 04 00 A0 C>") = parseTop (bytes "<FFEB0400A0C0>") :=
  ⟨rfl, rfl, rfl⟩

/-- C7: tokenizing the `613 0 obj ... endobj` buffer yields exactly the
expected 17 tokens and then no further token; interleaving %-comments
leaves the token stream unchanged, and the end of input yields no token
rather than an empty token. -/
theorem spec_c7_token_stream :
    (tokenize (bytes "613 0 obj<< /Length 141 /Filter [ /ASCII85Decode /FlateDecode ] >>endobj")).1 =
      tokensExpected ∧
    tryReadNextToken
      (tokenize (bytes "613 0 obj<< /Length 141 /Filter [ /ASCII85Decode /FlateDecode ] >>endobj")).2 =
      none ∧
    (tokenize (bytes "613 0 obj\n% A comment that should be ignored\n<< /Length 141 /Filter\n% A comment in a dictionary\n[ /ASCII85Decode /FlateDecode ] >>endobj")).1 =
      tokensExpected ∧
    tryReadNextToken
      (tokenize (bytes "613 0 obj\n% A comment that should be ignored\n<< /Length 141 /Filter\n% A comment in a dictionary\n[ /ASCII85Decode /FlateDecode ] >>endobj")).2 =
      none :=
  ⟨rfl, rfl, rfl, rfl⟩

/-- C8: a `/W` array that is not exactly `W_ARRAY_SIZE` (= 3) entries of
nonnegative widths each at most `W_MAX_BYTES` (= 4) makes the xref stream
parse fail with the typed `InvalidXRefStream` error, never a silent
default. -/
theorem spec_c8_w_validation (w : List Int)
    (h : ¬ (w.length = W_ARRAY_SIZE ∧ ∀ x ∈ w, 0 ≤ x ∧ x ≤ (W_MAX_BYTES : Int))) :
    validateW w = Except.error PdfErrorCode.invalidXRefStream := by
  match w with
  | [] => rfl
  | [_] => rfl
  | [_, _] => rfl
  | _ :: _ :: _ :: _ :: _ => rfl
  | [a, b, c] =>
    rw [validateW, if_neg]
    intro hc
    apply h
    refine ⟨rfl, ?_⟩
    intro x hx
    rcases List.mem_cons.mp hx with h1 | hx
    · exact h1 ▸ ⟨hc.1, hc.2.1⟩
    rcases List.mem_cons.mp hx with h2 | hx
    · exact h2 ▸ ⟨hc.2.2.1, hc.2.2.2.1⟩
    rcases List.mem_cons.mp hx with h3 | hx
    · exact h3 ▸ ⟨hc.2.2.2.2.1, hc.2.2.2.2.2⟩
    · exact absurd hx (List.not_mem_nil x)

/-- C8 witness: the array `[1, 2, 5]` (third width over 4 bytes) is
rejected with the typed error. -/
theorem spec_c8_w_validation_witness :
    validateW [1, 2, 5] = Except.error PdfErrorCode.invalidXRefStream :=
  spec_c8_w_validation [1, 2, 5] (by decide)

/-- C9: parsing an indirect object whose `N G obj` header is immediately
followed by `endobj` succeeds and yields the Null value. -/
theorem spec_c9_empty_object :
    parseObjectFile (bytes "10 0 obj\nendobj\n") = some PdfVariant.null ∧
    PdfVariant.isNull PdfVariant.null = true :=
  ⟨rfl, rfl⟩

/-- C10: for every width, text and skipSpaces argument,
`GetMultiLineTextAsLines` returns the one-element list holding the input
text unchanged: the unconditional early return makes the word-wrap code
unreachable. -/
theorem spec_c10_no_wrap {W : Type} (width : W) (text : List Nat) (skipSpaces : Bool) :
    GetMultiLineTextAsLines width text skipSpaces = [text] :=
  rfl

end Pdfmm
